import Mathlib

/-!
Verification development for the GPTQ quantization core of
`src/torchao/quantization/GPTQ.py`.

The embedding works over exact rational arithmetic.  A weight matrix of
shape (out_features, in_features) is represented as a `List Col`: one entry
per input-feature column, each column being a function from the output-row
index to the rational entry (`Col := ℕ → ℚ`).  A Hessian is a function
`Mat := ℕ → ℕ → ℚ`.

The quantization-mode functions (`get_qparams_func`, `quantize_func`,
`dequantize_func`, `combine_qparams_list_func`, `skip_layer_func`,
`make_names_and_values_dict_func`) are caller-supplied configuration in the
source (`configure_quantization_mode`, lines 259-294); they are embedded as
the fields of a `Plugin` structure.

The call chain `torch.linalg.cholesky` / `torch.cholesky_inverse` /
`torch.linalg.cholesky(·, upper=True)` (GPTQ.py lines 491-494) is external
library code that is not part of this repository; it is abstracted as a
function parameter `cholChain : Mat → Mat` standing for that composition
(spec section 4.4 step 3: it produces the upper-triangular inverse-Hessian
Cholesky factor).  Likewise the scalar `(2 / total) ** (1 / 2)` of line 380
uses the square root, which is abstracted as a parameter `s : ℚ → ℚ`
standing for the real square root; theorems that need its defining property
take it as a hypothesis at exactly the arguments that occur.
-/

/-- A column of a weight matrix: output-row index to entry. -/
abbrev Col : Type := ℕ → ℚ

/-- The all-zero column. -/
def zeroCol : Col := fun _ => 0

/-- A square matrix (Hessian / Cholesky factor), indexed by row and column. -/
abbrev Mat : Type := ℕ → ℕ → ℚ

/-- Quantization-mode configuration: the six functions handed to
`configure_quantization_mode` (GPTQ.py lines 259-294).  `QP` is the opaque
qparams type. -/
structure Plugin (QP : Type) where
  getQparams : List Col → QP
  quantize : List Col → QP → List Col
  dequantize : List Col → QP → List Col
  combineQparamsList : List QP → QP
  skipLayer : List Col → Bool
  makeNamesAndValues : List Col → QP → List (String × List Col)

/-- `W[:, s : s+g]` (GPTQ.py line 511): drop `s` columns, take `g`. -/
def sliceCols (W : List Col) (s g : ℕ) : List Col := (W.drop s).take g

/-- Quantize a single column: `quantize_func(w.unsqueeze(1), qparams).flatten()`
(GPTQ.py line 515). -/
def quant1 {QP : Type} (P : Plugin QP) (w : Col) (qp : QP) : Col :=
  (P.quantize [w] qp).headD zeroCol

/-- Dequantize a single column: `dequantize_func(q.unsqueeze(1), qparams).flatten()`
(GPTQ.py line 519). -/
def dequant1 {QP : Type} (P : Plugin QP) (q : Col) (qp : QP) : Col :=
  (P.dequantize [q] qp).headD zeroCol

/-- Quantize-dequantize round trip of one column with fixed qparams. -/
def colRT {QP : Type} (P : Plugin QP) (qp : QP) (w : Col) : Col :=
  dequant1 P (quant1 P w qp) qp

/-- Replace, from column index `start` on, column `j` by `f j`-of-it; columns
before `start` are kept.  This models the in-place slice assignments
`W1[:, i:] -= ...` (line 525) and `W[:, i2:] -= ...` (line 533). -/
def colUpdateFrom (start : ℕ) (f : ℕ → Col → Col) (l : List Col) : List Col :=
  l.enum.map (fun p => if start ≤ p.1 then f p.1 p.2 else p.2)

/-- `dead = torch.diag(H) == 0; H[dead, dead] = 1` (GPTQ.py lines 481-482):
diagonal entries of `H` that are zero are forced to `1`. -/
def deadFixH (H : Mat) : Mat :=
  fun i j => if i = j ∧ H j j = 0 then 1 else H i j

/-- `W[:, dead] = 0` (GPTQ.py line 483): columns of `W` whose Hessian
diagonal entry is zero are zeroed. -/
def deadFixW (H : Mat) (W : List Col) : List Col :=
  W.enum.map (fun p => if H p.1 p.1 = 0 then zeroCol else p.2)

/-- `damp = percdamp * mean(diag(H)); H[diag, diag] += damp`
(GPTQ.py lines 488-490). -/
def dampDiag (percdamp : ℚ) (columns : ℕ) (H : Mat) : Mat :=
  let damp := percdamp * (((List.range columns).map (fun j => H j j)).sum / columns)
  fun i j => if i = j ∧ i < columns then H i j + damp else H i j

/-- Loop-carried state of the per-column loop inside one block
(GPTQ.py lines 500-528): the block-local working copy `W1`, the
per-column dequantized outputs `DQ1`, the per-column errors `Err1`, the
current group qparams and the accumulated per-group qparams list.
(The `Losses` accumulator of lines 503/522/531 is local to the source
function and never used afterwards; it is omitted.) -/
structure InnerSt (QP : Type) where
  W1 : List Col
  DQ1 : List Col
  Err1 : List Col
  curQ : QP
  allQ : List QP

/-- One iteration of the per-column loop (GPTQ.py lines 505-528).
`Wg` is the enclosing (global) `W`, used for the group-qparams slice of
line 511; `i1` is the block offset.  For the nonnegative indices arising
here, `%` on `ℤ` agrees with Python's modulo. -/
def innerStep {QP : Type} (P : Plugin QP) (Hinv : Mat) (groupsize : ℤ) (i1 : ℕ)
    (Wg : List Col) (st : InnerSt QP) (i : ℕ) : InnerSt QP :=
  let w := st.W1.getD i zeroCol
  let d := Hinv (i1 + i) (i1 + i)
  let next :=
    if groupsize ≠ -1 ∧ ((i1 + i : ℕ) : ℤ) % groupsize = 0 then
      let qp := P.getQparams (sliceCols Wg (i1 + i) groupsize.toNat)
      (qp, st.allQ ++ [qp])
    else (st.curQ, st.allQ)
  let q := quant1 P w next.1
  let dq := dequant1 P q next.1
  let err1 : Col := fun r => (w r - dq r) / d
  let W1n := colUpdateFrom i (fun j c => fun r => c r - err1 r * Hinv (i1 + i) (i1 + j)) st.W1
  ⟨W1n, st.DQ1 ++ [dq], st.Err1 ++ [err1], next.1, next.2⟩

/-- State carried across blocks (GPTQ.py lines 497-533): the progressively
corrected `W`, the dequantized output `DQ`, the current group qparams and the
per-group qparams list. -/
structure GlobSt (QP : Type) where
  W : List Col
  DQ : List Col
  curQ : QP
  allQ : List QP

/-- One iteration of the block loop (GPTQ.py lines 497-533): clone the block
columns, run the per-column loop, write the block's `DQ1` and propagate the
accumulated block error to all later columns of `W`. -/
def processBlock {QP : Type} (P : Plugin QP) (Hinv : Mat) (blocksize : ℕ)
    (groupsize : ℤ) (st : GlobSt QP) (i1 : ℕ) : GlobSt QP :=
  let columns := st.W.length
  let i2 := min (i1 + blocksize) columns
  let count := i2 - i1
  let W1 := sliceCols st.W i1 count
  let fin := (List.range count).foldl (innerStep P Hinv groupsize i1 st.W)
    ⟨W1, [], [], st.curQ, st.allQ⟩
  let Wn := colUpdateFrom i2
    (fun j c => fun r => c r - (fin.Err1.enum.map (fun e => e.2 r * Hinv (i1 + e.1) j)).sum)
    st.W
  ⟨Wn, st.DQ ++ fin.DQ1, fin.curQ, fin.allQ⟩

/-- `faster_quant` (GPTQ.py lines 469-535) up to and including the block loop.
`cholChain` stands for the external factorization chain of lines 491-494.
When `groupsize = -1`, `cur_qparams` is computed from `W` at entry
(line 480), before the dead-column handling of lines 481-483; when
`groupsize ≠ -1`, the Python variable is still unbound at this point and the
placeholder `P.getQparams []` is never consulted, because column 0 starts a
group.  -/
def faster_quant_state {QP : Type} (P : Plugin QP) (cholChain : Mat → Mat)
    (blocksize : ℕ) (percdamp : ℚ) (groupsize : ℤ) (H : Mat) (W : List Col) :
    GlobSt QP :=
  let columns := W.length
  let curQ0 := if groupsize = -1 then P.getQparams W else P.getQparams []
  let Wd := deadFixW H W
  let H1 := deadFixH H
  let H2 := dampDiag percdamp columns H1
  let Hinv := cholChain H2
  let numBlocks := (columns + blocksize - 1) / blocksize
  let starts := (List.range numBlocks).map (· * blocksize)
  starts.foldl (processBlock P Hinv blocksize groupsize) ⟨Wd, [], curQ0, []⟩

/-- The dequantized output and the per-group qparams list of `faster_quant`,
including the `all_qparams == []` fallback of GPTQ.py lines 537-539. -/
def faster_quant_qlist {QP : Type} (P : Plugin QP) (cholChain : Mat → Mat)
    (blocksize : ℕ) (percdamp : ℚ) (groupsize : ℤ) (H : Mat) (W : List Col) :
    List Col × List QP :=
  let st := faster_quant_state P cholChain blocksize percdamp groupsize H W
  (st.DQ, if st.allQ.isEmpty then [st.curQ] else st.allQ)

/-- `faster_quant` (GPTQ.py lines 469-547): returns `(Q, DQ, qparams)` where
`qparams` is the combined per-group list (line 545) and
`Q = quantize_func(DQ, qparams)` (line 546). -/
def faster_quant {QP : Type} (P : Plugin QP) (cholChain : Mat → Mat)
    (blocksize : ℕ) (percdamp : ℚ) (groupsize : ℤ) (H : Mat) (W : List Col) :
    List Col × List Col × QP :=
  let r := faster_quant_qlist P cholChain blocksize percdamp groupsize H W
  let combined := P.combineQparamsList r.2
  (P.quantize r.1 combined, r.1, combined)

/-! ## Hessian accumulation (GPTQ.py lines 362-383) -/

/-- `x.matmul(x.t())` for `x` the (features × rows)-shaped transposed
activation matrix, represented by the list of its sample rows:
entry (i, j) is the sum over rows `v` of `v i * v j`. -/
def gram (rows : List Col) : Mat :=
  fun i j => (rows.map (fun v => v i * v j)).sum

/-- One Hessian update (GPTQ.py lines 376-383) on a mini-batch of `n` samples
whose flattened activation rows are `rows`:
`H *= total / (total + n); total += n;`
`x = sqrt(2 / total) * reshaped.t(); H += x.matmul(x.t())`.
`s` stands for the square root of line 380. -/
def hessUpdateStep (s : ℚ → ℚ) (st : Mat × ℕ) (batch : ℕ × List Col) : Mat × ℕ :=
  let H := st.1
  let total := st.2
  let n := batch.1
  let H1 : Mat := fun i j => H i j * ((total : ℚ) / ((total : ℚ) + (n : ℚ)))
  let tn := total + n
  let c := s (2 / (tn : ℚ))
  let scaled := batch.2.map (fun v => (fun r => c * v r))
  (fun i j => H1 i j + gram scaled i j, tn)

/-- Hessian accumulation over a sequence of mini-batches, starting from
`H = 0, total_batches = 0` (GPTQ.py lines 362-364). -/
def hessAccumulate (s : ℚ → ℚ) (batches : List (ℕ × List Col)) : Mat × ℕ :=
  batches.foldl (hessUpdateStep s) (fun _ _ => 0, 0)

/-- Sample-count running totals `total_batches` attained after each
mini-batch. -/
def totalsFrom (t : ℕ) : List (ℕ × List Col) → List ℕ
  | [] => []
  | b :: bs => (t + b.1) :: totalsFrom (t + b.1) bs

/-! ## The linear-node branch of `call_function` (GPTQ.py lines 317-467) -/

/-- `F.linear`: output row `o` of `x @ W.t()` for an activation vector `x`
and weight `W` given as its list of columns. -/
def linearOut (x : List ℚ) (W : List Col) : Col :=
  fun o => (List.zipWith (fun xi c => xi * c o) x W).sum

/-- `dict.pop(k, None)` on an association-list state dict. -/
def sdPop {V : Type} (sd : List (String × V)) (k : String) : List (String × V) :=
  sd.filter (fun e => e.1 != k)

/-- `dict[k] = v` on an association-list state dict. -/
def sdSet {V : Type} (sd : List (String × V)) (k : String) (v : V) :
    List (String × V) :=
  sdPop sd k ++ [(k, v)]

/-- Lookup in an association-list state dict. -/
def sdLookup {V : Type} (sd : List (String × V)) (k : String) : Option V :=
  (sd.find? (fun e => e.1 == k)).map (·.2)

/-- The Hessian a linear node accumulates over its per-sample activation
vectors (GPTQ.py lines 366-383; each sample is a 2-D activation of one row,
so `n = 1` per sample), after the optional `act_fake_quant_func` of
line 374-375. -/
def runnerHessian (s : ℚ → ℚ) (afq : Option (Col → Col)) (samples : List (List ℚ)) :
    Mat :=
  let rows := samples.map (fun x =>
    let v : Col := fun k => x.getD k 0
    match afq with
    | some f => f v
    | none => v)
  (hessAccumulate s (rows.map (fun v => (1, [v])))).1

/-- The quantization-target branch of `call_function`
(GPTQ.py lines 353-465) for one linear node, restricted to what the claims
observe: the skip decision (lines 354-360), Hessian accumulation
(lines 366-383), the `faster_quant` call (line 399), the state-dict update
(lines 403-411; the optional bias carry-over of lines 408-409 is not
modelled), and the returned per-sample outputs.  On the skip path the node
is executed normally with the original weight per sample and the state dict
is untouched; on the quantization path the returned outputs are computed by
re-running the linear with `DQ` (lines 413-416). -/
def call_function_linear {QP : Type} (P : Plugin QP) (cholChain : Mat → Mat)
    (s : ℚ → ℚ) (afq : Option (Col → Col)) (blocksize : ℕ) (percdamp : ℚ)
    (groupsize : ℤ) (samples : List (List ℚ)) (W : List Col)
    (sd : List (String × List Col)) (modFqn : String) :
    List (String × List Col) × List Col :=
  if P.skipLayer W then
    (sd, samples.map (fun x => linearOut x W))
  else
    let H := runnerHessian s afq samples
    let r := faster_quant P cholChain blocksize percdamp groupsize H W
    let nv := P.makeNamesAndValues r.1 r.2.2
    let sd1 := sdPop sd (modFqn ++ ".weight")
    let sd2 := nv.foldl (fun acc kv => sdSet acc (modFqn ++ "." ++ kv.1) kv.2) sd1
    (sd2, samples.map (fun x => linearOut x r.2.1))

/-! ## Runner preconditions (GPTQ.py lines 296-315) -/

/-- The runner state observed by `run` / `get_quantized_state_dict`:
the `gptq_done` flag and the state dict being assembled. -/
structure RunnerSt (V : Type) where
  gptqDone : Bool
  stateDict : List (String × V)

/-- `GenericGPTQRunner.run` (GPTQ.py lines 296-301): asserts that the
quantization mode has been configured, then sets `gptq_done` and walks the
graph (abstracted as `walk`). -/
def Runner.run {QP V : Type} (walk : List (String × V) → List (String × V))
    (plugin : Option (Plugin QP)) (st : RunnerSt V) : Except String (RunnerSt V) :=
  match plugin with
  | none => Except.error "need to configure quantization mode before running"
  | some _ => Except.ok { gptqDone := true, stateDict := walk st.stateDict }

/-- Boolean infix test on lists (`pat in s` for strings, via char lists). -/
def listInfix (pat : List Char) : List Char → Bool
  | [] => pat.isEmpty
  | a :: rest => pat.isPrefixOf (a :: rest) || listInfix pat rest

/-- `GenericGPTQRunner.get_quantized_state_dict` (GPTQ.py lines 303-315):
asserts `gptq_done`, then returns the state dict with every entry whose
name contains `kv_cache` removed. -/
def Runner.get_quantized_state_dict {V : Type} (st : RunnerSt V) :
    Except String (List (String × V)) :=
  if st.gptqDone then
    Except.ok (st.stateDict.filter (fun e => ! (listInfix "kv_cache".toList e.1.toList)))
  else
    Except.error "need to run GPTQRunner before you can get_quantized_state_dict"

/-! ## Generic argument transposition of `call_function`
(GPTQ.py lines 325-350) -/

/-- One flattened argument of a graph node: either a `MultiInput` batch or a
plain per-sample-constant value. -/
inductive FlatArg (α : Type) where
  | multi : List α → FlatArg α
  | single : α → FlatArg α

/-- `len(x.values) if isinstance(x, MultiInput) else 1` (GPTQ.py line 335). -/
def argLen {α : Type} : FlatArg α → ℕ
  | .multi vs => vs.length
  | .single _ => 1

/-- `MultiInput in [type(x) for x in flat_args]` (GPTQ.py line 330). -/
def hasMulti {α : Type} (args : List (FlatArg α)) : Bool :=
  args.any (fun a => match a with | .multi _ => true | .single _ => false)

/-- `multi_input_count = max([...])` (GPTQ.py lines 334-336). -/
def maxCount {α : Type} (args : List (FlatArg α)) : ℕ :=
  (args.map argLen).foldr max 0

/-- `x.values if isinstance(x, MultiInput) else [x] * multi_input_count`
(GPTQ.py lines 340-344). -/
def expandArg {α : Type} (cnt : ℕ) : FlatArg α → List α
  | .multi vs => vs
  | .single v => List.replicate cnt v

/-- The length of Python's `zip(*lists)`: the minimum of the list lengths
(0 when there are no lists). -/
def natMin : List ℕ → ℕ
  | [] => 0
  | x :: xs => xs.foldl min x

/-- `list(zip(*lists))` (GPTQ.py lines 337-348): tuple `i` collects element
`i` of every list; iteration stops at the shortest list. -/
def pyZip {α : Type} [Inhabited α] (ls : List (List α)) : List (List α) :=
  (List.range (natMin (ls.map List.length))).map
    (fun i => ls.map (fun l => l.getD i default))

/-- The generic (non-quantized) evaluation path of `call_function`
(GPTQ.py lines 325-351, 366, 386-392, 467): transpose the batched
arguments, evaluate the node once per transposed tuple, and collect the
results into a `MultiInput` (or evaluate once when no batch is present). -/
def call_function_zip {α : Type} [Inhabited α] (f : List α → α)
    (args : List (FlatArg α)) : FlatArg α :=
  if hasMulti args then
    FlatArg.multi ((pyZip (args.map (expandArg (maxCount args)))).map f)
  else
    FlatArg.single (f (args.map (fun a =>
      match a with | .multi vs => vs.headD default | .single v => v)))

/-- The lengths of the `MultiInput` arguments among the flattened args. -/
def multiLens {α : Type} (args : List (FlatArg α)) : List ℕ :=
  args.filterMap (fun a => match a with | .multi vs => some vs.length | .single _ => none)

/-! ## Basic lemmas -/

theorem foldl_min_le_acc (l : List ℕ) (acc : ℕ) : l.foldl min acc ≤ acc := by
  induction l generalizing acc with
  | nil => exact le_refl acc
  | cons a l ih => exact le_trans (ih (min acc a)) (min_le_left acc a)

theorem foldl_min_le_mem (l : List ℕ) (acc x : ℕ) (hx : x ∈ l) :
    l.foldl min acc ≤ x := by
  induction l generalizing acc with
  | nil => cases hx
  | cons a l ih =>
    rcases List.mem_cons.mp hx with h | h
    · subst h
      exact le_trans (foldl_min_le_acc l (min acc x)) (min_le_right acc x)
    · exact ih (min acc a) h

theorem le_foldl_min (l : List ℕ) (acc b : ℕ) (hb : b ≤ acc)
    (hl : ∀ x ∈ l, b ≤ x) : b ≤ l.foldl min acc := by
  induction l generalizing acc with
  | nil => exact hb
  | cons a l ih =>
    exact ih (min acc a) (le_min hb (hl a (List.mem_cons_self a l)))
      (fun x hx => hl x (List.mem_cons_of_mem a hx))

theorem foldl_min_mem (l : List ℕ) (acc : ℕ) :
    l.foldl min acc = acc ∨ l.foldl min acc ∈ l := by
  induction l generalizing acc with
  | nil => exact Or.inl rfl
  | cons a l ih =>
    rcases ih (min acc a) with h | h
    · rcases min_cases acc a with ⟨h2, _⟩ | ⟨h2, _⟩
      · exact Or.inl (h.trans h2)
      · exact Or.inr (by rw [List.foldl_cons, h, h2]; exact List.mem_cons_self a l)
    · exact Or.inr (List.mem_cons_of_mem a h)

theorem le_foldr_max (l : List ℕ) (x : ℕ) (hx : x ∈ l) : x ≤ l.foldr max 0 := by
  induction l with
  | nil => cases hx
  | cons a l ih =>
    rcases List.mem_cons.mp hx with h | h
    · rw [List.foldr_cons, h]
      exact le_max_left _ _
    · exact le_trans (ih h) (by rw [List.foldr_cons]; exact le_max_right _ _)

theorem le_maxCount {α : Type} (args : List (FlatArg α)) (a : FlatArg α)
    (ha : a ∈ args) : argLen a ≤ maxCount args :=
  le_foldr_max (args.map argLen) (argLen a) (List.mem_map_of_mem argLen ha)

theorem colUpdateFrom_length (start : ℕ) (f : ℕ → Col → Col) (l : List Col) :
    (colUpdateFrom start f l).length = l.length := by
  simp [colUpdateFrom]

theorem deadFixW_length (H : Mat) (W : List Col) :
    (deadFixW H W).length = W.length := by
  simp [deadFixW]

theorem deadFixW_getD (H : Mat) (W : List Col) (j : ℕ) (hj : j < W.length) :
    (deadFixW H W).getD j zeroCol =
      (if H j j = 0 then zeroCol else W.getD j zeroCol) := by
  have hj2 : j < (deadFixW H W).length := by
    rw [deadFixW_length]
    exact hj
  rw [List.getD_eq_getElem (deadFixW H W) zeroCol hj2,
    List.getD_eq_getElem W zeroCol hj]
  simp [deadFixW]

theorem natMin_le_mem (l : List ℕ) (x : ℕ) (hx : x ∈ l) : natMin l ≤ x := by
  cases l with
  | nil => cases hx
  | cons a l =>
    rcases List.mem_cons.mp hx with h | h
    · subst h
      exact foldl_min_le_acc l x
    · exact foldl_min_le_mem l a x h

theorem natMin_mem (l : List ℕ) (h : l ≠ []) : natMin l ∈ l := by
  cases l with
  | nil => exact absurd rfl h
  | cons a l =>
    rcases foldl_min_mem l a with h2 | h2
    · rw [natMin, h2]
      exact List.mem_cons_self a l
    · exact List.mem_cons_of_mem a h2

theorem le_natMin (l : List ℕ) (b : ℕ) (hne : l ≠ []) (h : ∀ x ∈ l, b ≤ x) :
    b ≤ natMin l := by
  cases l with
  | nil => exact absurd rfl hne
  | cons a l =>
    exact le_foldl_min l a b (h a (List.mem_cons_self a l))
      (fun x hx => h x (List.mem_cons_of_mem a hx))

/-! ## Claim C10: batch transposition truncates at the shortest batch -/

/-- C10: when the flattened arguments contain `MultiInput` batches of
unequal lengths (GPTQ.py lines 330-350), no error is raised: plain
arguments are broadcast to `multi_input_count` (the longest batch length),
the node is evaluated once per `zip`-transposed tuple — i.e. min-of-the-
lengths times — and the returned batch has that shortest length, which is
strictly smaller than the broadcast length (the extra samples of longer
batches are dropped). -/
theorem c10_zip_truncation {α : Type} [Inhabited α] (f : List α → α)
    (args : List (FlatArg α)) (l1 l2 : ℕ)
    (h1 : l1 ∈ multiLens args) (h2 : l2 ∈ multiLens args) (hne : l1 ≠ l2) :
    (∀ (v : α), ∀ a ∈ args, a = FlatArg.single v →
        (expandArg (maxCount args) a).length = maxCount args) ∧
    call_function_zip f args =
      FlatArg.multi ((pyZip (args.map (expandArg (maxCount args)))).map f) ∧
    ((pyZip (args.map (expandArg (maxCount args)))).map f).length =
      natMin (multiLens args) ∧
    natMin (multiLens args) < maxCount args := by
  obtain ⟨a1, ha1, hfa1⟩ := List.mem_filterMap.mp h1
  obtain ⟨a2, ha2, hfa2⟩ := List.mem_filterMap.mp h2
  have hB_sub : ∀ x ∈ multiLens args,
      x ∈ args.map (fun a => (expandArg (maxCount args) a).length) := by
    intro x hx
    obtain ⟨a, ha, hfa⟩ := List.mem_filterMap.mp hx
    cases a with
    | multi vs =>
      simp only [Option.some.injEq] at hfa
      exact List.mem_map.mpr ⟨FlatArg.multi vs, ha, by simp [expandArg, hfa]⟩
    | single v => simp at hfa
  have hmax : ∀ x ∈ multiLens args, x ≤ maxCount args := by
    intro x hx
    obtain ⟨a, ha, hfa⟩ := List.mem_filterMap.mp hx
    cases a with
    | multi vs =>
      simp only [Option.some.injEq] at hfa
      have := le_maxCount args (FlatArg.multi vs) ha
      simpa [argLen, hfa] using this
    | single v => simp at hfa
  have hBne : multiLens args ≠ [] := List.ne_nil_of_mem h1
  have hAne : args.map (fun a => (expandArg (maxCount args) a).length) ≠ [] := by
    intro hc
    exact hBne (List.eq_nil_of_subset_nil (fun x hx => by
      rw [hc] at hB_sub
      exact hB_sub x hx))
  have hmin_eq : natMin (args.map (fun a => (expandArg (maxCount args) a).length)) =
      natMin (multiLens args) := by
    apply le_antisymm
    · exact natMin_le_mem _ _ (hB_sub _ (natMin_mem _ hBne))
    · apply le_natMin _ _ hAne
      intro x hx
      obtain ⟨a, ha, hfa⟩ := List.mem_map.mp hx
      cases a with
      | multi vs =>
        apply natMin_le_mem
        have : vs.length ∈ multiLens args := List.mem_filterMap.mpr
          ⟨FlatArg.multi vs, ha, rfl⟩
        simpa [expandArg, ← hfa] using this
      | single v =>
        have hx_eq : x = maxCount args := by simp [expandArg, ← hfa]
        rw [hx_eq]
        exact le_trans (natMin_le_mem _ _ h1) (hmax _ h1)
  have hHM : hasMulti args = true := by
    cases a1 with
    | multi vs =>
      exact List.any_eq_true.mpr ⟨FlatArg.multi vs, ha1, rfl⟩
    | single v => simp at hfa1
  refine ⟨?_, ?_, ?_, ?_⟩
  · intro v a _ha heq
    rw [heq]
    simp [expandArg]
  · simp [call_function_zip, hHM]
  · simp only [List.length_map, pyZip, List.length_range, List.map_map]
    rw [Function.comp_def] at *
    exact hmin_eq
  · rcases Nat.lt_or_ge l1 l2 with hlt | hge
    · calc natMin (multiLens args) ≤ l1 := natMin_le_mem _ _ h1
        _ < l2 := hlt
        _ ≤ maxCount args := hmax _ h2
    · have hlt : l2 < l1 := lt_of_le_of_ne hge (Ne.symm hne)
      calc natMin (multiLens args) ≤ l2 := natMin_le_mem _ _ h2
        _ < l1 := hlt
        _ ≤ maxCount args := hmax _ h1

/-- Witness for C10: two batches of lengths 2 and 3 (plus one plain
argument), evaluated with a head-taking node function. -/
theorem c10_zip_truncation_witness :
    (2 ∈ multiLens [FlatArg.multi [(0 : ℚ), 0], FlatArg.multi [0, 0, 0],
        FlatArg.single 7]) ∧
    (3 ∈ multiLens [FlatArg.multi [(0 : ℚ), 0], FlatArg.multi [0, 0, 0],
        FlatArg.single 7]) ∧
    ((pyZip ([FlatArg.multi [(0 : ℚ), 0], FlatArg.multi [0, 0, 0],
        FlatArg.single 7].map
          (expandArg (maxCount [FlatArg.multi [(0 : ℚ), 0],
            FlatArg.multi [0, 0, 0], FlatArg.single 7])))).map
        (fun l => l.headD 0)).length =
      natMin (multiLens [FlatArg.multi [(0 : ℚ), 0], FlatArg.multi [0, 0, 0],
        FlatArg.single 7]) := by
  refine ⟨by decide, by decide, ?_⟩
  exact (c10_zip_truncation (fun l => l.headD 0)
    [FlatArg.multi [(0 : ℚ), 0], FlatArg.multi [0, 0, 0], FlatArg.single 7]
    2 3 (by decide) (by decide) (by decide)).2.2.1

/-! ## Claim C6: dead-column handling -/

/-- C6: every column index `j` with `H[j,j] = 0` has its diagonal entry
forced to `1` and the corresponding column of `W` zeroed by the
pre-factorization handling of `faster_quant` (GPTQ.py lines 481-483), and
after that handling every diagonal entry of the Hessian is nonzero, so the
factorization input is nowhere singular on its diagonal.  In this exact
rational embedding all matrix entries are total rational values, so no
NaN/Inf can arise in the returned `Q`/`DQ`. -/
theorem c6_dead_columns (H : Mat) (W : List Col) (j : ℕ) :
    (H j j = 0 → deadFixH H j j = 1 ∧
      (j < W.length → (deadFixW H W).getD j zeroCol = zeroCol)) ∧
    deadFixH H j j ≠ 0 := by
  constructor
  · intro h0
    refine ⟨by simp [deadFixH, h0], ?_⟩
    intro hj
    rw [deadFixW_getD H W j hj]
    simp [h0]
  · by_cases h0 : H j j = 0
    · simp [deadFixH, h0]
    · simp [deadFixH, h0]

/-- Witness for C6 at a concrete input: a 1×1 Hessian `[[0]]` and weight
column `[5]`. -/
theorem c6_dead_columns_witness :
    ((fun _ _ => (0 : ℚ)) : Mat) 0 0 = 0 ∧
      deadFixH (fun _ _ => (0 : ℚ)) 0 0 = 1 ∧
      (deadFixW (fun _ _ => (0 : ℚ)) [fun _ => (5 : ℚ)]).getD 0 zeroCol = zeroCol := by
  have h := c6_dead_columns (fun _ _ => (0 : ℚ)) [fun _ => (5 : ℚ)] 0
  exact ⟨rfl, (h.1 rfl).1, (h.1 rfl).2 (by simp)⟩

/-! ## Claim C2: requantization round trip -/

/-- C2: for every weight and Hessian, the integer matrix returned by
`faster_quant` equals `quantize_func(DQ, combined_qparams)` for the returned
reconstruction `DQ` and the returned combined qparams (GPTQ.py
lines 544-547; the `.to(orig_dtype)` cast of line 547 is the identity in
this exact-arithmetic embedding). -/
theorem c2_requant_roundtrip {QP : Type} (P : Plugin QP) (cholChain : Mat → Mat)
    (blocksize : ℕ) (percdamp : ℚ) (groupsize : ℤ) (H : Mat) (W : List Col) :
    (faster_quant P cholChain blocksize percdamp groupsize H W).1 =
      P.quantize (faster_quant P cholChain blocksize percdamp groupsize H W).2.1
        (faster_quant P cholChain blocksize percdamp groupsize H W).2.2 := by
  rfl

/-! ## Claim C5: whole-tensor sentinel qparams -/

theorem innerStep_neg_one {QP : Type} (P : Plugin QP) (Hinv : Mat) (i1 : ℕ)
    (Wg : List Col) (st : InnerSt QP) (i : ℕ) :
    (innerStep P Hinv (-1) i1 Wg st i).curQ = st.curQ ∧
      (innerStep P Hinv (-1) i1 Wg st i).allQ = st.allQ := by
  simp [innerStep]

theorem innerFold_neg_one {QP : Type} (P : Plugin QP) (Hinv : Mat) (i1 : ℕ)
    (Wg : List Col) (l : List ℕ) (st : InnerSt QP) :
    (l.foldl (innerStep P Hinv (-1) i1 Wg) st).curQ = st.curQ ∧
      (l.foldl (innerStep P Hinv (-1) i1 Wg) st).allQ = st.allQ := by
  induction l generalizing st with
  | nil => exact ⟨rfl, rfl⟩
  | cons a l ih =>
    simp only [List.foldl_cons]
    rcases ih (innerStep P Hinv (-1) i1 Wg st a) with ⟨h1, h2⟩
    rcases innerStep_neg_one P Hinv i1 Wg st a with ⟨g1, g2⟩
    exact ⟨h1.trans g1, h2.trans g2⟩

theorem processBlock_neg_one {QP : Type} (P : Plugin QP) (Hinv : Mat)
    (blocksize : ℕ) (st : GlobSt QP) (i1 : ℕ) :
    (processBlock P Hinv blocksize (-1) st i1).curQ = st.curQ ∧
      (processBlock P Hinv blocksize (-1) st i1).allQ = st.allQ := by
  simp only [processBlock]
  exact innerFold_neg_one P Hinv i1 st.W _ _

theorem blockFold_neg_one {QP : Type} (P : Plugin QP) (Hinv : Mat)
    (blocksize : ℕ) (l : List ℕ) (st : GlobSt QP) :
    (l.foldl (processBlock P Hinv blocksize (-1)) st).curQ = st.curQ ∧
      (l.foldl (processBlock P Hinv blocksize (-1)) st).allQ = st.allQ := by
  induction l generalizing st with
  | nil => exact ⟨rfl, rfl⟩
  | cons a l ih =>
    simp only [List.foldl_cons]
    rcases ih (processBlock P Hinv blocksize (-1) st a) with ⟨h1, h2⟩
    rcases processBlock_neg_one P Hinv blocksize st a with ⟨g1, g2⟩
    exact ⟨h1.trans g1, h2.trans g2⟩

/-- C5 counterexample: with the whole-tensor sentinel, the single qparams is
computed from `W` *before* dead-column zeroing (GPTQ.py line 480 precedes
lines 481-483), not from the dead-zeroed, partially-corrected `W` as the
claim states.  Concretely: a 1×1 zero Hessian makes column 0 dead; with
`get_qparams` reading entry (0,0), the emitted qparams list is `[5]`
(from the original weight) and not `[0]` (from the dead-zeroed weight). -/
theorem c5_counterexample :
    (faster_quant_qlist
      (@Plugin.mk ℚ (fun cols => (cols.headD zeroCol) 0)
        (fun cols _ => cols) (fun cols _ => cols) (fun l => l.headD 0)
        (fun _ => false) (fun _ _ => []))
      (fun _ => fun i j => if i = j then 1 else 0)
      1 0 (-1) (fun _ _ => (0 : ℚ)) [fun _ => (5 : ℚ)]).2 ≠
    [(@Plugin.mk ℚ (fun cols => (cols.headD zeroCol) 0)
        (fun cols _ => cols) (fun cols _ => cols) (fun l => l.headD 0)
        (fun _ => false) (fun _ _ => [])).getQparams
      (deadFixW (fun _ _ => (0 : ℚ)) [fun _ => (5 : ℚ)])] := by
  decide

/-- C5 amended: with the whole-tensor sentinel (`groupsize = -1`), the single
qparams object is computed once at function entry from the original `W`,
before the dead-column zeroing (GPTQ.py line 480), no per-group qparams are
ever recorded during the loop, and the algorithm finalizes with exactly that
single qparams (lines 537-539). -/
theorem faster_quant_state_neg_one {QP : Type} (P : Plugin QP)
    (cholChain : Mat → Mat) (blocksize : ℕ) (percdamp : ℚ) (H : Mat)
    (W : List Col) :
    (faster_quant_state P cholChain blocksize percdamp (-1) H W).curQ =
        P.getQparams W ∧
      (faster_quant_state P cholChain blocksize percdamp (-1) H W).allQ = [] := by
  unfold faster_quant_state
  simp only [if_pos rfl]
  exact blockFold_neg_one P _ blocksize _ _

theorem c5_amended {QP : Type} (P : Plugin QP) (cholChain : Mat → Mat)
    (blocksize : ℕ) (percdamp : ℚ) (H : Mat) (W : List Col) :
    (faster_quant_qlist P cholChain blocksize percdamp (-1) H W).2 =
      [P.getQparams W] := by
  rcases faster_quant_state_neg_one P cholChain blocksize percdamp H W with ⟨h1, h2⟩
  show (if (faster_quant_state P cholChain blocksize percdamp (-1) H W).allQ.isEmpty
      then [(faster_quant_state P cholChain blocksize percdamp (-1) H W).curQ]
      else (faster_quant_state P cholChain blocksize percdamp (-1) H W).allQ) =
    [P.getQparams W]
  rw [h1, h2]
  rfl

/-! ## Claim C4: Hessian running-average update -/

theorem gram_smul (c : ℚ) (rows : List Col) (i j : ℕ) :
    gram (rows.map (fun v => fun r => c * v r)) i j = c ^ 2 * gram rows i j := by
  unfold gram
  induction rows with
  | nil => simp
  | cons v rows ih =>
    simp only [List.map_cons, List.sum_cons]
    rw [ih]
    ring

theorem totalsFrom_cons (t : ℕ) (b : ℕ × List Col) (bs : List (ℕ × List Col)) :
    totalsFrom t (b :: bs) = (t + b.1) :: totalsFrom (t + b.1) bs := rfl

theorem hessFold_from (s : ℚ → ℚ) (bs : List (ℕ × List Col)) :
    ∀ (t : ℕ) (S : Mat), 0 < t →
    (∀ u ∈ totalsFrom t bs, (s (2 / (u : ℚ))) ^ 2 = 2 / (u : ℚ)) →
    bs.foldl (hessUpdateStep s) (fun i j => 2 / (t : ℚ) * S i j, t) =
      (fun i j => 2 / ((t + (bs.map (·.1)).sum : ℕ) : ℚ) *
        (S i j + (bs.map (fun b => gram b.2 i j)).sum),
       t + (bs.map (·.1)).sum) := by
  induction bs with
  | nil =>
    intro t S ht _hs
    simp only [List.foldl_nil, List.map_nil, List.sum_nil, Nat.add_zero,
      Prod.mk.injEq]
    refine ⟨?_, trivial⟩
    funext i j
    rw [add_zero]
  | cons b bs ih =>
    intro t S ht hs
    obtain ⟨n, rows⟩ := b
    simp only [List.foldl_cons]
    have hstep : hessUpdateStep s (fun i j => 2 / (t : ℚ) * S i j, t) (n, rows) =
        (fun i j => 2 / ((t + n : ℕ) : ℚ) * (S i j + gram rows i j), t + n) := by
      have hc : (s (2 / ((t + n : ℕ) : ℚ))) ^ 2 = 2 / ((t + n : ℕ) : ℚ) :=
        hs (t + n) (by rw [totalsFrom_cons]; exact List.mem_cons_self _ _)
      have ht0 : (t : ℚ) ≠ 0 := Nat.cast_ne_zero.mpr ht.ne'
      have htn0 : ((t + n : ℕ) : ℚ) ≠ 0 := Nat.cast_ne_zero.mpr (by omega)
      simp only [hessUpdateStep, Prod.mk.injEq]
      refine ⟨?_, trivial⟩
      funext i j
      rw [gram_smul]
      rw [hc]
      push_cast at htn0 ht0 ⊢
      field_simp
      ring
    rw [hstep]
    have hrec := ih (t + n) (fun i j => S i j + gram rows i j) (by omega)
      (fun u hu => hs u (by rw [totalsFrom_cons]; exact List.mem_cons_of_mem _ hu))
    rw [hrec]
    simp only [List.map_cons, List.sum_cons, Prod.mk.injEq]
    refine ⟨?_, by omega⟩
    funext i j
    have hN : t + n + (bs.map (·.1)).sum = t + (n + (bs.map (·.1)).sum) := by omega
    rw [hN, add_assoc]

/-- C4: one Hessian update on a mini-batch of `m` samples with `n` samples
already seen computes `new_H = (n/(n+m)) * H + X_scaled * X_scaled^T`, where
`X_scaled` is the batch's flattened activation rows scaled by
`s(2/(n+m))` — the square root of `2/(n+m)` (GPTQ.py lines 376-383) — and
consequently the accumulated Hessian over all mini-batches equals
`2/N * Σ_b X_b X_b^T` for `N` the total sample count: twice the empirical
mean of `x xᵀ` over the calibration samples. -/
theorem c4_hessian_update (s : ℚ → ℚ) (H : Mat) (n m : ℕ) (rows : List Col)
    (batches : List (ℕ × List Col))
    (hpos : ∀ b ∈ batches, 1 ≤ b.1)
    (hs : ∀ u ∈ totalsFrom 0 batches, (s (2 / (u : ℚ))) ^ 2 = 2 / (u : ℚ)) :
    hessUpdateStep s (H, n) (m, rows) =
      (fun i j => ((n : ℚ) / ((n : ℚ) + (m : ℚ))) * H i j +
        gram (rows.map (fun v => fun r => s (2 / ((n : ℚ) + (m : ℚ))) * v r)) i j,
       n + m) ∧
    (hessAccumulate s batches).1 =
      fun i j => 2 / (((batches.map (·.1)).sum : ℕ) : ℚ) *
        (batches.map (fun b => gram b.2 i j)).sum := by
  constructor
  · simp only [hessUpdateStep, Prod.mk.injEq, Nat.cast_add]
    refine ⟨?_, trivial⟩
    funext i j
    ring_nf
  · cases batches with
    | nil =>
      funext i j
      simp [hessAccumulate]
    | cons b bs =>
      obtain ⟨k, rws⟩ := b
      have hk : 1 ≤ k := hpos (k, rws) (List.mem_cons_self _ _)
      have hck : (s (2 / ((k : ℕ) : ℚ))) ^ 2 = 2 / ((k : ℕ) : ℚ) := by
        have h0 := hs (0 + k) (by rw [totalsFrom_cons]; exact List.mem_cons_self _ _)
        simpa using h0
      unfold hessAccumulate
      simp only [List.foldl_cons]
      have hstep0 : hessUpdateStep s (fun _ _ => 0, 0) (k, rws) =
          (fun i j => 2 / ((k : ℕ) : ℚ) * ((fun i2 j2 => gram rws i2 j2) i j), k) := by
        simp only [hessUpdateStep, Prod.mk.injEq]
        refine ⟨?_, by omega⟩
        funext i j
        rw [gram_smul]
        simp only [Nat.cast_zero, zero_mul, zero_div, zero_add, Nat.zero_add]
        rw [hck]
      rw [hstep0]
      have hrec := hessFold_from s bs k (fun i2 j2 => gram rws i2 j2) (by omega)
        (fun u hu => by
          apply hs u
          rw [totalsFrom_cons]
          apply List.mem_cons_of_mem
          simpa using hu)
      rw [hrec]
      simp only [List.map_cons, List.sum_cons]

/-- Witness for C4: a single mini-batch of 2 samples (so every running
total's `2/total` is the rational perfect square `1`, and the identity
serves as the square root there). -/
theorem c4_hessian_update_witness :
    (∀ b ∈ [((2 : ℕ), ([fun _ => (1 : ℚ)] : List Col))], 1 ≤ b.1) ∧
    (∀ u ∈ totalsFrom 0 [((2 : ℕ), ([fun _ => (1 : ℚ)] : List Col))],
      ((fun q => q) (2 / (u : ℚ))) ^ 2 = 2 / (u : ℚ)) ∧
    (hessAccumulate (fun q => q) [((2 : ℕ), [fun _ => (1 : ℚ)])]).1 =
      fun i j => 2 / ((([((2 : ℕ), ([fun _ => (1 : ℚ)] : List Col))].map
          (·.1)).sum : ℕ) : ℚ) *
        ([((2 : ℕ), ([fun _ => (1 : ℚ)] : List Col))].map
          (fun b => gram b.2 i j)).sum := by
  refine ⟨by intro b hb; simp only [List.mem_singleton] at hb; subst hb; decide,
    ?_, ?_⟩
  · intro u hu
    simp [totalsFrom] at hu
    subst hu
    norm_num
  · exact (c4_hessian_update (fun q => q) (fun _ _ => 0) 0 0 []
      [((2 : ℕ), [fun _ => (1 : ℚ)])]
      (by intro b hb; simp only [List.mem_singleton] at hb; subst hb; decide)
      (by intro u hu; simp [totalsFrom] at hu; subst hu; norm_num)).2

/-! ## Concrete instances used by counterexamples and witnesses -/

/-- The identity matrix, used as a concrete stand-in for the factorization
result (it is diagonal with nonzero diagonal, as the real inverse-Hessian
Cholesky factor of a diagonal Hessian is). -/
def diagId : Mat := fun i j => if i = j then 1 else 0

/-- A concrete factorization chain returning the identity. -/
def constChol : Mat → Mat := fun _ => diagId

/-- Round a rational to the nearest integer (ties up): the floor of
`(2 num + den) / (2 den)`. -/
def rnd (q : ℚ) : ℤ := Int.fdiv (2 * q.num + q.den) (2 * q.den)

/-- A concrete quantization mode: round every entry to the nearest integer
(scale 1, zero-point 0), dequantization is the identity on the integer
values, no layer skipped. -/
def roundPlugin : Plugin Unit where
  getQparams := fun _ => ()
  quantize := fun cols _ => cols.map (fun c => fun r => ((rnd (c r) : ℤ) : ℚ))
  dequantize := fun cols _ => cols
  combineQparamsList := fun _ => ()
  skipLayer := fun _ => false
  makeNamesAndValues := fun q _ => [("weight", q)]

/-- A concrete quantization mode whose skip predicate rejects every layer. -/
def skipPlugin : Plugin Unit where
  getQparams := fun _ => ()
  quantize := fun cols _ => cols
  dequantize := fun cols _ => cols
  combineQparamsList := fun _ => ()
  skipLayer := fun _ => true
  makeNamesAndValues := fun q _ => [("weight", q)]

/-! ## Claim C1: output returned for a quantization target -/

/-- C1 counterexample: the claim says the runner returns the per-sample
linear output computed with the original weight; but GPTQ.py lines 413-416
re-run the linear with `DQ`.  With the rounding mode, weight `[[1/3]]` and
the single sample `[1]`, the returned output entry is `0` (from
`DQ = [[0]]`), not the original-weight output `1/3`. -/
theorem c1_counterexample :
    ((call_function_linear roundPlugin constChol (fun q => q) none 1 0 (-1)
        [[1]] [fun _ => (1 / 3 : ℚ)] [] "lin").2.getD 0 zeroCol) 0 ≠
      (linearOut [1] [fun _ => (1 / 3 : ℚ)]) 0 := by
  norm_num [call_function_linear, roundPlugin, runnerHessian, hessAccumulate,
    hessUpdateStep, gram, faster_quant, faster_quant_qlist, faster_quant_state,
    processBlock, innerStep, colUpdateFrom, deadFixW, deadFixH, dampDiag,
    sliceCols, quant1, dequant1, linearOut, zeroCol, diagId, constChol,
    sdPop, sdSet, List.range_succ, rnd]
  rw [show Int.fdiv 5 6 = 0 from by decide]
  norm_num

/-- C1 amended: for a quantization target (not skipped), `call_function`
returns, for each calibration sample, the linear output computed with the
dequantized reconstruction `DQ` of the quantized weight (GPTQ.py
lines 413-416) — not with the original weight — so downstream graph nodes
receive the quantized model's forward activations. -/
theorem c1_amended {QP : Type} (P : Plugin QP) (cholChain : Mat → Mat)
    (s : ℚ → ℚ) (afq : Option (Col → Col)) (blocksize : ℕ) (percdamp : ℚ)
    (groupsize : ℤ) (samples : List (List ℚ)) (W : List Col)
    (sd : List (String × List Col)) (modFqn : String)
    (hskip : P.skipLayer W = false) :
    (call_function_linear P cholChain s afq blocksize percdamp groupsize
        samples W sd modFqn).2 =
      samples.map (fun x => linearOut x
        (faster_quant P cholChain blocksize percdamp groupsize
          (runnerHessian s afq samples) W).2.1) := by
  simp [call_function_linear, hskip]

/-- Witness for C1 amended at the counterexample's input. -/
theorem c1_amended_witness :
    roundPlugin.skipLayer [fun _ => (1 / 3 : ℚ)] = false ∧
    (call_function_linear roundPlugin constChol (fun q => q) none 1 0 (-1)
        [[1]] [fun _ => (1 / 3 : ℚ)] [] "lin").2 =
      [[(1 : ℚ)]].map (fun x => linearOut x
        (faster_quant roundPlugin constChol 1 0 (-1)
          (runnerHessian (fun q => q) none [[(1 : ℚ)]])
          [fun _ => (1 / 3 : ℚ)]).2.1) :=
  ⟨rfl, c1_amended roundPlugin constChol (fun q => q) none 1 0 (-1)
    [[1]] [fun _ => (1 / 3 : ℚ)] [] "lin" rfl⟩

/-! ## Claim C8: skipped layers -/

/-- C8 counterexample: the claim says a skipped layer is absent from the
output mapping; but `new_state_dict` starts from the model's full
`state_dict()` (GPTQ.py line 248) and the skip path of `call_function`
leaves it untouched, so the skipped layer's weight entry is still present
(with its original value). -/
theorem c8_counterexample :
    (sdLookup ((call_function_linear skipPlugin constChol (fun q => q) none
        1 0 (-1) [[1]] [fun _ => (1 : ℚ)]
        [("lin.weight", [fun _ => (1 : ℚ)])] "lin").1)
      "lin.weight").isSome = true := by
  rfl

/-- C8 amended: a layer for which `skip_layer` returns true is not a
quantization target (GPTQ.py lines 354-360): the skip is not an error, the
state dict is left completely unmodified — in particular the layer keeps its
original entry, under its original name, with its original (unmodified)
value, rather than being absent — and the node is executed normally with the
original weight for every sample. -/
theorem c8_amended {QP : Type} (P : Plugin QP) (cholChain : Mat → Mat)
    (s : ℚ → ℚ) (afq : Option (Col → Col)) (blocksize : ℕ) (percdamp : ℚ)
    (groupsize : ℤ) (samples : List (List ℚ)) (W : List Col)
    (sd : List (String × List Col)) (modFqn : String)
    (hskip : P.skipLayer W = true) :
    (call_function_linear P cholChain s afq blocksize percdamp groupsize
        samples W sd modFqn).1 = sd ∧
    (call_function_linear P cholChain s afq blocksize percdamp groupsize
        samples W sd modFqn).2 = samples.map (fun x => linearOut x W) := by
  constructor <;> simp [call_function_linear, hskip]

/-- Witness for C8 amended at the counterexample's input. -/
theorem c8_amended_witness :
    skipPlugin.skipLayer [fun _ => (1 : ℚ)] = true ∧
    (call_function_linear skipPlugin constChol (fun q => q) none 1 0 (-1)
        [[(1 : ℚ)]] [fun _ => (1 : ℚ)]
        [("lin.weight", [fun _ => (1 : ℚ)])] "lin").1 =
      [("lin.weight", [fun _ => (1 : ℚ)])] ∧
    (call_function_linear skipPlugin constChol (fun q => q) none 1 0 (-1)
        [[(1 : ℚ)]] [fun _ => (1 : ℚ)]
        [("lin.weight", [fun _ => (1 : ℚ)])] "lin").2 =
      [[(1 : ℚ)]].map (fun x => linearOut x [fun _ => (1 : ℚ)]) :=
  ⟨rfl,
    (c8_amended skipPlugin constChol (fun q => q) none 1 0 (-1) [[(1 : ℚ)]]
      [fun _ => (1 : ℚ)] [("lin.weight", [fun _ => (1 : ℚ)])] "lin" rfl).1,
    (c8_amended skipPlugin constChol (fun q => q) none 1 0 (-1) [[(1 : ℚ)]]
      [fun _ => (1 : ℚ)] [("lin.weight", [fun _ => (1 : ℚ)])] "lin" rfl).2⟩

/-! ## Claim C7: output shapes and group count -/

/-- Whether global column index `c` starts a new group
(GPTQ.py line 509). -/
def isGroupStart (g : ℤ) (c : ℕ) : Bool :=
  decide (g ≠ -1 ∧ ((c : ℕ) : ℤ) % g = 0)

theorem innerStep_lens {QP : Type} (P : Plugin QP) (Hinv : Mat) (g : ℤ)
    (i1 : ℕ) (Wg : List Col) (st : InnerSt QP) (i : ℕ) :
    (innerStep P Hinv g i1 Wg st i).DQ1.length = st.DQ1.length + 1 ∧
    (innerStep P Hinv g i1 Wg st i).allQ.length =
      st.allQ.length + (if isGroupStart g (i1 + i) then 1 else 0) := by
  by_cases h : g ≠ -1 ∧ ((i1 + i : ℕ) : ℤ) % g = 0
  · have hb : isGroupStart g (i1 + i) = true := by
      unfold isGroupStart
      exact decide_eq_true h
    simp only [innerStep]
    rw [if_pos h, hb]
    simp
  · have hb : isGroupStart g (i1 + i) = false := by
      unfold isGroupStart
      exact decide_eq_false h
    simp only [innerStep]
    rw [if_neg h, hb]
    simp

theorem innerFold_lens {QP : Type} (P : Plugin QP) (Hinv : Mat) (g : ℤ)
    (i1 : ℕ) (Wg : List Col) :
    ∀ (n : ℕ) (st : InnerSt QP),
    ((List.range n).foldl (innerStep P Hinv g i1 Wg) st).DQ1.length =
        st.DQ1.length + n ∧
    ((List.range n).foldl (innerStep P Hinv g i1 Wg) st).allQ.length =
      st.allQ.length +
        (List.range n).countP (fun i => isGroupStart g (i1 + i)) := by
  intro n
  induction n with
  | zero => intro st; simp
  | succ n ih =>
    intro st
    rw [List.range_succ, List.foldl_append]
    rcases ih st with ⟨h1, h2⟩
    rcases innerStep_lens P Hinv g i1 Wg
      ((List.range n).foldl (innerStep P Hinv g i1 Wg) st) n with ⟨g1, g2⟩
    constructor
    · rw [List.foldl_cons, List.foldl_nil] at *
      rw [g1, h1]
      omega
    · rw [List.foldl_cons, List.foldl_nil] at *
      rw [g2, h2, List.countP_append]
      simp only [List.countP_cons, List.countP_nil]
      by_cases hc : isGroupStart g (i1 + n)
      · simp only [hc, if_true]
        omega
      · simp only [hc, Bool.false_eq_true, if_false]
        omega

theorem processBlock_lens {QP : Type} (P : Plugin QP) (Hinv : Mat) (b : ℕ)
    (g : ℤ) (st : GlobSt QP) (i1 : ℕ) :
    (processBlock P Hinv b g st i1).W.length = st.W.length ∧
    (processBlock P Hinv b g st i1).DQ.length =
      st.DQ.length + (min (i1 + b) st.W.length - i1) ∧
    (processBlock P Hinv b g st i1).allQ.length =
      st.allQ.length + (List.range (min (i1 + b) st.W.length - i1)).countP
        (fun i => isGroupStart g (i1 + i)) := by
  rcases innerFold_lens P Hinv g i1 st.W (min (i1 + b) st.W.length - i1)
    ⟨sliceCols st.W i1 (min (i1 + b) st.W.length - i1), [], [], st.curQ, st.allQ⟩
    with ⟨h1, h2⟩
  refine ⟨by simp [processBlock, colUpdateFrom_length], ?_, ?_⟩
  · simp only [processBlock, List.length_append]
    rw [h1]
    simp
  · simp only [processBlock, List.length_append]
    rw [h2]

theorem blockFold_lens {QP : Type} (P : Plugin QP) (Hinv : Mat) (b : ℕ)
    (g : ℤ) :
    ∀ (nb : ℕ) (st : GlobSt QP),
    (((List.range nb).map (· * b)).foldl (processBlock P Hinv b g) st).W.length =
        st.W.length ∧
    (((List.range nb).map (· * b)).foldl (processBlock P Hinv b g) st).DQ.length =
      st.DQ.length + min (nb * b) st.W.length ∧
    (((List.range nb).map (· * b)).foldl (processBlock P Hinv b g) st).allQ.length =
      st.allQ.length +
        (List.range (min (nb * b) st.W.length)).countP (isGroupStart g) := by
  intro nb
  induction nb with
  | zero => intro st; simp
  | succ nb ih =>
    intro st
    rw [List.range_succ, List.map_append, List.foldl_append]
    rcases ih st with ⟨h1, h2, h3⟩
    set res := ((List.range nb).map (· * b)).foldl (processBlock P Hinv b g) st
      with hres
    rcases processBlock_lens P Hinv b g res (nb * b) with ⟨g1, g2, g3⟩
    simp only [List.map_cons, List.map_nil, List.foldl_cons, List.foldl_nil]
    have hsm : (nb + 1) * b = nb * b + b := by rw [Nat.succ_mul]
    refine ⟨by rw [g1, h1], ?_, ?_⟩
    · rw [g2, h2, h1, hsm]
      omega
    · rw [g3, h3, h1, hsm]
      by_cases hcase : nb * b ≤ st.W.length
      · have hmin1 : min (nb * b) st.W.length = nb * b := by omega
        obtain ⟨c, hc⟩ : ∃ c, min (nb * b + b) st.W.length - nb * b = c := ⟨_, rfl⟩
        have hc2 : min (nb * b + b) st.W.length = nb * b + c := by omega
        rw [hmin1, hc, hc2, List.range_add, List.countP_append, List.countP_map]
        simp only [Function.comp_def]
        omega
      · have hmin1 : min (nb * b) st.W.length = st.W.length := by omega
        have hz : min (nb * b + b) st.W.length - nb * b = 0 := by omega
        have hmin2 : min (nb * b + b) st.W.length = st.W.length := by omega
        rw [hmin1, hz, hmin2]
        simp

/-- `cols ≤ ceil(cols / b) * b`. -/
theorem le_ceil_mul (b cols : ℕ) (hb : 1 ≤ b) :
    cols ≤ ((cols + b - 1) / b) * b := by
  have h := Nat.div_add_mod (cols + b - 1) b
  have h2 : (cols + b - 1) % b < b := Nat.mod_lt _ (by omega)
  have h3 : b * ((cols + b - 1) / b) = ((cols + b - 1) / b) * b :=
    Nat.mul_comm _ _
  omega

theorem countP_range_dvd (gn : ℕ) (hg : 1 ≤ gn) :
    ∀ n, (List.range n).countP (fun c => decide (gn ∣ c)) = (n + gn - 1) / gn := by
  intro n
  induction n with
  | zero =>
    simp only [List.range_zero, List.countP_nil]
    rw [Nat.div_eq_of_lt (show 0 + gn - 1 < gn by omega)]
  | succ n ih =>
    rw [List.range_succ, List.countP_append, ih]
    simp only [List.countP_cons, List.countP_nil]
    by_cases hd : gn ∣ n
    · obtain ⟨q, rfl⟩ := hd
      have e1 : (gn * q + gn - 1) / gn = q := by
        have h3 : gn * q + gn - 1 = gn - 1 + q * gn := by
          have hc := Nat.mul_comm gn q
          omega
        rw [h3, Nat.add_mul_div_right _ _ (show 0 < gn by omega),
          Nat.div_eq_of_lt (show gn - 1 < gn by omega)]
        omega
      have e2 : (gn * q + 1 + gn - 1) / gn = q + 1 := by
        have h4 : gn * q + 1 + gn - 1 = (q + 1) * gn := by
          have hc := Nat.mul_comm gn q
          have hx : (q + 1) * gn = q * gn + gn := by ring
          omega
        rw [h4, Nat.mul_div_cancel _ (show 0 < gn by omega)]
      rw [e1, e2]
      simp [dvd_mul_right]
    · have hq := Nat.div_add_mod n gn
      have hr1 : 1 ≤ n % gn := by
        rcases Nat.eq_zero_or_pos (n % gn) with h0 | h0
        · exact absurd (Nat.dvd_of_mod_eq_zero h0) hd
        · exact h0
      have hr2 : n % gn < gn := Nat.mod_lt _ (by omega)
      have hc := Nat.mul_comm gn (n / gn)
      have e1 : (n + gn - 1) / gn = n / gn + 1 := by
        have h5 : n + gn - 1 = (n % gn - 1) + (n / gn + 1) * gn := by
          have hx : (n / gn + 1) * gn = n / gn * gn + gn := by ring
          omega
        rw [h5, Nat.add_mul_div_right _ _ (show 0 < gn by omega),
          Nat.div_eq_of_lt (show n % gn - 1 < gn by omega)]
        omega
      have e2 : (n + 1 + gn - 1) / gn = n / gn + 1 := by
        have h4 : n + 1 + gn - 1 = n % gn + (n / gn + 1) * gn := by
          have hx : (n / gn + 1) * gn = n / gn * gn + gn := by ring
          omega
        rw [h4, Nat.add_mul_div_right _ _ (show 0 < gn by omega),
          Nat.div_eq_of_lt hr2]
        omega
      rw [e1, e2]
      simp [hd]

theorem isGroupStart_pos (g : ℤ) (hg : 1 ≤ g) (c : ℕ) :
    isGroupStart g c = decide (g.toNat ∣ c) := by
  have hgne : g ≠ -1 := by omega
  unfold isGroupStart
  by_cases hd : g.toNat ∣ c
  · have hdz : g ∣ (c : ℤ) := by
      have h2 : ((g.toNat : ℕ) : ℤ) ∣ ((c : ℕ) : ℤ) := Int.natCast_dvd_natCast.mpr hd
      rwa [Int.toNat_of_nonneg (by omega : (0 : ℤ) ≤ g)] at h2
    have hmod : ((c : ℕ) : ℤ) % g = 0 := Int.emod_eq_zero_of_dvd hdz
    simp [hd, hmod, hgne]
  · have hdz : ¬ g ∣ (c : ℤ) := by
      intro hcon
      apply hd
      have h2 : ((g.toNat : ℕ) : ℤ) ∣ ((c : ℕ) : ℤ) := by
        rw [Int.toNat_of_nonneg (by omega : (0 : ℤ) ≤ g)]
        exact hcon
      exact Int.natCast_dvd_natCast.mp h2
    have hmod : ((c : ℕ) : ℤ) % g ≠ 0 := fun hcon =>
      hdz (Int.dvd_of_emod_eq_zero hcon)
    simp [hd, hmod]

/-- C7: `faster_quant` returns `DQ` and `Q` with as many columns as `W` (the
row count is shape-level in this embedding: every column is a total function
on row indices), and the per-group qparams list has `in_features / groupsize`
entries for a positive group size dividing the column count, and exactly one
entry under the whole-tensor sentinel. -/
theorem c7_shapes {QP : Type} (P : Plugin QP) (cholChain : Mat → Mat)
    (b : ℕ) (p : ℚ) (g : ℤ) (H : Mat) (W : List Col)
    (hb : 1 ≤ b)
    (hq : ∀ cols qp, (P.quantize cols qp).length = cols.length)
    (hg : g = -1 ∨ (1 ≤ g ∧ g.toNat ∣ W.length ∧ 1 ≤ W.length)) :
    (faster_quant P cholChain b p g H W).2.1.length = W.length ∧
    (faster_quant P cholChain b p g H W).1.length = W.length ∧
    (faster_quant_qlist P cholChain b p g H W).2.length =
      (if g = -1 then 1 else W.length / g.toNat) := by
  have hstate := blockFold_lens P
    (cholChain (dampDiag p W.length (deadFixH H))) b g
    ((W.length + b - 1) / b) ⟨deadFixW H W, [], (if g = -1 then P.getQparams W
      else P.getQparams []), []⟩
  rcases hstate with ⟨hW, hDQ, hQl⟩
  simp only [deadFixW_length] at hDQ hQl
  have hmin : min (((W.length + b - 1) / b) * b) W.length = W.length := by
    have := le_ceil_mul b W.length hb
    omega
  rw [hmin] at hDQ hQl
  have hstDQ : (faster_quant_state P cholChain b p g H W).DQ.length = W.length := by
    unfold faster_quant_state
    rw [hDQ]
    simp
  have hstQl : (faster_quant_state P cholChain b p g H W).allQ.length =
      (List.range W.length).countP (isGroupStart g) := by
    unfold faster_quant_state
    rw [hQl]
    simp
  have hDQfinal : (faster_quant P cholChain b p g H W).2.1.length = W.length := by
    show (faster_quant_qlist P cholChain b p g H W).1.length = W.length
    exact hstDQ
  refine ⟨hDQfinal, ?_, ?_⟩
  · show (P.quantize (faster_quant_qlist P cholChain b p g H W).1
      (P.combineQparamsList (faster_quant_qlist P cholChain b p g H W).2)).length =
      W.length
    rw [hq]
    exact hDQfinal
  · rcases hg with hneg | ⟨hg1, hgd, hc1⟩
    · subst hneg
      rw [c5_amended]
      simp
    · have hgne : g ≠ -1 := by omega
      have hcount : (List.range W.length).countP (isGroupStart g) =
          W.length / g.toNat := by
        have hgt : 1 ≤ g.toNat := by omega
        calc (List.range W.length).countP (isGroupStart g)
            = (List.range W.length).countP (fun c => decide (g.toNat ∣ c)) := by
              apply List.countP_congr
              intro c _
              rw [isGroupStart_pos g hg1 c]
          _ = (W.length + g.toNat - 1) / g.toNat := countP_range_dvd g.toNat hgt _
          _ = W.length / g.toNat := by
              obtain ⟨q, hq2⟩ := hgd
              rw [hq2]
              have h1 : g.toNat * q + g.toNat - 1 = g.toNat - 1 + q * g.toNat := by
                have hc := Nat.mul_comm g.toNat q
                omega
              rw [h1, Nat.add_mul_div_right _ _ (show 0 < g.toNat by omega),
                Nat.div_eq_of_lt (show g.toNat - 1 < g.toNat by omega),
                Nat.mul_comm g.toNat q,
                Nat.mul_div_cancel _ (show 0 < g.toNat by omega)]
              omega
      have hpos : 0 < (faster_quant_state P cholChain b p g H W).allQ.length := by
        rw [hstQl, hcount]
        have : g.toNat ≤ W.length := Nat.le_of_dvd (by omega) hgd
        have := Nat.div_pos this (by omega : 0 < g.toNat)
        omega
      have hnonempty : (faster_quant_state P cholChain b p g H W).allQ.isEmpty
          = false := by
        rcases hl : (faster_quant_state P cholChain b p g H W).allQ with _ | ⟨a, l⟩
        · rw [hl] at hpos
          simp at hpos
        · rfl
      show (if (faster_quant_state P cholChain b p g H W).allQ.isEmpty
          then [(faster_quant_state P cholChain b p g H W).curQ]
          else (faster_quant_state P cholChain b p g H W).allQ).length = _
      rw [hnonempty]
      simp only [Bool.false_eq_true, if_false, if_neg hgne]
      rw [hstQl, hcount]

/-- Witness for C7: a 2-column weight, block size 1, group size 1. -/
theorem c7_shapes_witness :
    (1 : ℕ) ≤ 1 ∧
    (∀ cols qp, (roundPlugin.quantize cols qp).length = cols.length) ∧
    ((faster_quant roundPlugin constChol 1 0 1 diagId
        [fun _ => (1 : ℚ), fun _ => (2 : ℚ)]).2.1.length = 2 ∧
      (faster_quant roundPlugin constChol 1 0 1 diagId
        [fun _ => (1 : ℚ), fun _ => (2 : ℚ)]).1.length = 2 ∧
      (faster_quant_qlist roundPlugin constChol 1 0 1 diagId
        [fun _ => (1 : ℚ), fun _ => (2 : ℚ)]).2.length =
        (if (1 : ℤ) = -1 then 1 else 2 / (1 : ℤ).toNat)) := by
  refine ⟨le_refl 1, ?_, ?_⟩
  · intro cols qp
    simp [roundPlugin]
  · exact c7_shapes roundPlugin constChol 1 0 1 diagId
      [fun _ => (1 : ℚ), fun _ => (2 : ℚ)] (le_refl 1)
      (by intro cols qp; simp [roundPlugin])
      (Or.inr ⟨le_refl 1, by decide, by decide⟩)

/-! ## Claim C3: identity Hessian - diagonal-factor characterization -/

theorem colUpdateFrom_getD (s : ℕ) (f : ℕ → Col → Col) (l : List Col) (j : ℕ)
    (hj : j < l.length) :
    (colUpdateFrom s f l).getD j zeroCol =
      if s ≤ j then f j (l.getD j zeroCol) else l.getD j zeroCol := by
  have hj2 : j < (colUpdateFrom s f l).length := by rwa [colUpdateFrom_length]
  rw [List.getD_eq_getElem _ _ hj2, List.getD_eq_getElem _ _ hj]
  simp [colUpdateFrom, List.getElem_enum, List.getD_eq_getElem _ _ hj]

theorem colUpdateFrom_getD_unchanged (s : ℕ) (f : ℕ → Col → Col) (l : List Col)
    (j : ℕ) (hf : f j (l.getD j zeroCol) = l.getD j zeroCol) :
    (colUpdateFrom s f l).getD j zeroCol = l.getD j zeroCol := by
  by_cases hjl : j < l.length
  · rw [colUpdateFrom_getD s f l j hjl]
    by_cases hsj : s ≤ j
    · rw [if_pos hsj, hf]
    · rw [if_neg hsj]
  · rw [List.getD_eq_default _ _
      (show (colUpdateFrom s f l).length ≤ j by rw [colUpdateFrom_length]; omega),
      List.getD_eq_default _ _ (show l.length ≤ j by omega)]

theorem enumFrom_fst_lt {α : Type} (l : List α) :
    ∀ (s : ℕ) (p : ℕ × α), p ∈ l.enumFrom s → p.1 < s + l.length := by
  induction l with
  | nil => intro s p hp; cases hp
  | cons a l ih =>
    intro s p hp
    rcases List.mem_cons.mp hp with h | h
    · rw [h]
      simp
    · have := ih (s + 1) p h
      simp only [List.length_cons]
      omega

theorem enum_fst_lt {α : Type} (l : List α) (p : ℕ × α) (hp : p ∈ l.enum) :
    p.1 < l.length := by
  have := enumFrom_fst_lt l 0 p hp
  omega

theorem colUpdateFrom_eq_self (s : ℕ) (f : ℕ → Col → Col) (l : List Col)
    (h : ∀ p ∈ l.enum, s ≤ p.1 → f p.1 p.2 = p.2) :
    colUpdateFrom s f l = l := by
  unfold colUpdateFrom
  have h2 : ∀ p ∈ l.enum, (if s ≤ p.1 then f p.1 p.2 else p.2) = p.2 := by
    intro p hp
    by_cases hs : s ≤ p.1
    · rw [if_pos hs, h p hp hs]
    · rw [if_neg hs]
  rw [List.map_congr_left h2, List.enum_map_snd]

theorem sliceCols_getD (W : List Col) (s c i : ℕ) (hi : i < c) :
    (sliceCols W s c).getD i zeroCol = W.getD (s + i) zeroCol := by
  rw [List.getD_eq_getElem?_getD, List.getD_eq_getElem?_getD]
  unfold sliceCols
  rw [List.getElem?_take, if_pos hi, List.getElem?_drop]

/-- The group-qparams scan of the column loop: at each group-start index
`c` (GPTQ.py line 509), fresh qparams are computed from the slice
`W0[:, c : c+groupsize]` (line 511) and appended (line 513); other indices
leave the state alone. -/
def qpScanStep {QP : Type} (P : Plugin QP) (g : ℤ) (W0 : List Col)
    (s : QP × List QP) (c : ℕ) : QP × List QP :=
  if g ≠ -1 ∧ ((c : ℕ) : ℤ) % g = 0 then
    (P.getQparams (sliceCols W0 c g.toNat),
     s.2 ++ [P.getQparams (sliceCols W0 c g.toNat)])
  else s

theorem innerStep_next {QP : Type} (P : Plugin QP) (Hinv : Mat) (g : ℤ)
    (i1 : ℕ) (Wg : List Col) (st : InnerSt QP) (i : ℕ) :
    ((innerStep P Hinv g i1 Wg st i).curQ,
      (innerStep P Hinv g i1 Wg st i).allQ) =
      qpScanStep P g Wg (st.curQ, st.allQ) (i1 + i) := by
  simp only [innerStep, qpScanStep]

theorem innerStep_diag {QP : Type} (P : Plugin QP) (Hinv : Mat) (g : ℤ)
    (i1 : ℕ) (Wg : List Col) (st : InnerSt QP) (i : ℕ)
    (hdiag : ∀ a b2, a ≠ b2 → Hinv a b2 = 0) :
    (innerStep P Hinv g i1 Wg st i).W1.length = st.W1.length ∧
    (∀ j, i < j → (innerStep P Hinv g i1 Wg st i).W1.getD j zeroCol =
      st.W1.getD j zeroCol) ∧
    (innerStep P Hinv g i1 Wg st i).DQ1 = st.DQ1 ++
      [colRT P (qpScanStep P g Wg (st.curQ, st.allQ) (i1 + i)).1
        (st.W1.getD i zeroCol)] ∧
    (innerStep P Hinv g i1 Wg st i).Err1.length = st.Err1.length + 1 := by
  have hnext := innerStep_next P Hinv g i1 Wg st i
  refine ⟨?_, ?_, ?_, ?_⟩
  · simp [innerStep, colUpdateFrom_length]
  · intro j hij
    simp only [innerStep]
    apply colUpdateFrom_getD_unchanged
    funext r
    rw [hdiag (i1 + i) (i1 + j) (by omega), mul_zero, sub_zero]
  · have hq : (innerStep P Hinv g i1 Wg st i).DQ1 = st.DQ1 ++
        [colRT P ((innerStep P Hinv g i1 Wg st i).curQ)
          (st.W1.getD i zeroCol)] := by
      simp only [innerStep, colRT]
    rw [hq]
    have hcur : (innerStep P Hinv g i1 Wg st i).curQ =
        (qpScanStep P g Wg (st.curQ, st.allQ) (i1 + i)).1 :=
      congrArg Prod.fst hnext
    rw [hcur]
  · simp [innerStep]

theorem foldl_range_succ {β : Type} (F : β → ℕ → β) (s : β) (n : ℕ) :
    (List.range (n + 1)).foldl F s = F ((List.range n).foldl F s) n := by
  rw [List.range_succ, List.foldl_append, List.foldl_cons, List.foldl_nil]

theorem innerFold_diag {QP : Type} (P : Plugin QP) (Hinv : Mat) (g : ℤ)
    (i1 : ℕ) (Wg : List Col)
    (hdiag : ∀ a b2, a ≠ b2 → Hinv a b2 = 0) :
    ∀ (n : ℕ) (st : InnerSt QP),
    ((List.range n).foldl (innerStep P Hinv g i1 Wg) st).W1.length =
        st.W1.length ∧
    (∀ j, n ≤ j →
      ((List.range n).foldl (innerStep P Hinv g i1 Wg) st).W1.getD j zeroCol =
        st.W1.getD j zeroCol) ∧
    ((List.range n).foldl (innerStep P Hinv g i1 Wg) st).DQ1 =
      st.DQ1 ++ (List.range n).map (fun i =>
        colRT P ((List.range (i + 1)).foldl
            (fun s2 k => qpScanStep P g Wg s2 (i1 + k)) (st.curQ, st.allQ)).1
          (st.W1.getD i zeroCol)) ∧
    (((List.range n).foldl (innerStep P Hinv g i1 Wg) st).curQ,
      ((List.range n).foldl (innerStep P Hinv g i1 Wg) st).allQ) =
      (List.range n).foldl (fun s2 k => qpScanStep P g Wg s2 (i1 + k))
        (st.curQ, st.allQ) ∧
    ((List.range n).foldl (innerStep P Hinv g i1 Wg) st).Err1.length =
      st.Err1.length + n := by
  intro n
  induction n with
  | zero =>
    intro st
    refine ⟨rfl, fun j _ => rfl, by simp, rfl, by simp⟩
  | succ n ih =>
    intro st
    rw [foldl_range_succ (innerStep P Hinv g i1 Wg) st n]
    obtain ⟨h1, h2, h3, h4, h5⟩ := ih st
    set res := (List.range n).foldl (innerStep P Hinv g i1 Wg) st with hres
    obtain ⟨g1, g2, g3, g4⟩ := innerStep_diag P Hinv g i1 Wg res n hdiag
    have hpair := innerStep_next P Hinv g i1 Wg res n
    refine ⟨g1.trans h1, ?_, ?_, ?_, ?_⟩
    · intro j hj
      rw [g2 j (by omega), h2 j (by omega)]
    · rw [g3, h3, List.append_assoc]
      congr 1
      rw [List.range_succ, List.map_append]
      congr 1
      simp only [List.map_cons, List.map_nil]
      have hA : (qpScanStep P g Wg (res.curQ, res.allQ) (i1 + n)).1 =
          ((List.range (n + 1)).foldl
            (fun s2 k => qpScanStep P g Wg s2 (i1 + k)) (st.curQ, st.allQ)).1 := by
        rw [foldl_range_succ, ← h4]
      have hw : res.W1.getD n zeroCol = st.W1.getD n zeroCol := h2 n (le_refl n)
      rw [hA, hw]
    · rw [hpair]
      rw [h4, foldl_range_succ]
    · rw [g4, h5]
      omega

theorem processBlock_diag {QP : Type} (P : Plugin QP) (Hinv : Mat) (b : ℕ)
    (g : ℤ) (st : GlobSt QP) (i1 : ℕ)
    (hdiag : ∀ a b2, a ≠ b2 → Hinv a b2 = 0) :
    (processBlock P Hinv b g st i1).W = st.W ∧
    (processBlock P Hinv b g st i1).DQ = st.DQ ++
      (List.range (min (i1 + b) st.W.length - i1)).map (fun i =>
        colRT P ((List.range (i + 1)).foldl
            (fun s2 k => qpScanStep P g st.W s2 (i1 + k)) (st.curQ, st.allQ)).1
          (st.W.getD (i1 + i) zeroCol)) ∧
    ((processBlock P Hinv b g st i1).curQ,
      (processBlock P Hinv b g st i1).allQ) =
      (List.range (min (i1 + b) st.W.length - i1)).foldl
        (fun s2 k => qpScanStep P g st.W s2 (i1 + k)) (st.curQ, st.allQ) := by
  obtain ⟨f1, f2, f3, f4, f5⟩ := innerFold_diag P Hinv g i1 st.W hdiag
    (min (i1 + b) st.W.length - i1)
    ⟨sliceCols st.W i1 (min (i1 + b) st.W.length - i1), [], [], st.curQ, st.allQ⟩
  refine ⟨?_, ?_, ?_⟩
  · simp only [processBlock]
    apply colUpdateFrom_eq_self
    intro p hp hle
    funext r
    show p.2 r - _ = p.2 r
    have hS : ((List.foldl (innerStep P Hinv g i1 st.W)
        ⟨sliceCols st.W i1 (min (i1 + b) st.W.length - i1), [], [],
          st.curQ, st.allQ⟩
        (List.range (min (i1 + b) st.W.length - i1))).Err1.enum.map
          (fun e => e.2 r * Hinv (i1 + e.1) p.1)).sum = 0 := by
      apply List.sum_eq_zero
      intro x hx
      obtain ⟨e, he, hex⟩ := List.mem_map.mp hx
      have he1 := enum_fst_lt _ _ he
      rw [f5] at he1
      have hne : (i1 + e.1) ≠ p.1 := by
        simp only [List.length_nil] at he1
        omega
      rw [← hex, hdiag _ _ hne, mul_zero]
    rw [hS, sub_zero]
  · simp only [processBlock]
    rw [f3]
    simp only [List.nil_append]
    congr 1
    apply List.map_congr_left
    intro i hi
    rw [sliceCols_getD st.W i1 _ i (List.mem_range.mp hi)]
  · simp only [processBlock]
    exact f4

theorem scan_offset {QP : Type} (P : Plugin QP) (g : ℤ) (W0 : List Col)
    (i1 cnt : ℕ) (s : QP × List QP) :
    (List.range cnt).foldl (fun s2 k => qpScanStep P g W0 s2 (i1 + k)) s =
      (List.range' i1 cnt).foldl (qpScanStep P g W0) s := by
  rw [List.range'_eq_map_range, List.foldl_map]

theorem foldl_range_split {β : Type} (F : β → ℕ → β) (s : β) (a c : ℕ) :
    (List.range' a c).foldl F ((List.range a).foldl F s) =
      (List.range (a + c)).foldl F s := by
  rw [List.range_add, List.foldl_append, List.range'_eq_map_range]

theorem blockFold_diag {QP : Type} (P : Plugin QP) (Hinv : Mat) (b : ℕ)
    (g : ℤ) (hdiag : ∀ a b2, a ≠ b2 → Hinv a b2 = 0) :
    ∀ (nb : ℕ) (st : GlobSt QP),
    (((List.range nb).map (· * b)).foldl (processBlock P Hinv b g) st).W =
        st.W ∧
    (((List.range nb).map (· * b)).foldl (processBlock P Hinv b g) st).DQ =
      st.DQ ++ (List.range (min (nb * b) st.W.length)).map (fun c =>
        colRT P ((List.range (c + 1)).foldl (qpScanStep P g st.W)
          (st.curQ, st.allQ)).1 (st.W.getD c zeroCol)) ∧
    ((((List.range nb).map (· * b)).foldl (processBlock P Hinv b g) st).curQ,
      (((List.range nb).map (· * b)).foldl (processBlock P Hinv b g) st).allQ) =
      (List.range (min (nb * b) st.W.length)).foldl (qpScanStep P g st.W)
        (st.curQ, st.allQ) := by
  intro nb
  induction nb with
  | zero =>
    intro st
    refine ⟨rfl, by simp, by simp⟩
  | succ nb ih =>
    intro st
    rw [List.range_succ, List.map_append, List.foldl_append]
    obtain ⟨h1, h2, h3⟩ := ih st
    set res := ((List.range nb).map (· * b)).foldl (processBlock P Hinv b g) st
      with hres
    simp only [List.map_cons, List.map_nil, List.foldl_cons, List.foldl_nil]
    obtain ⟨g1, g2, g3⟩ := processBlock_diag P Hinv b g res (nb * b) hdiag
    rw [h1] at g2 g3
    by_cases hcase : nb * b ≤ st.W.length
    · have hm1 : min (nb * b) st.W.length = nb * b := by omega
      have hcnt : nb * b + (min (nb * b + b) st.W.length - nb * b) =
          min ((nb + 1) * b) st.W.length := by
        rw [Nat.succ_mul]
        omega
      refine ⟨g1.trans h1, ?_, ?_⟩
      · rw [g2, h2, h3, hm1, ← hcnt, List.range_add, List.map_append,
          List.append_assoc]
        congr 2
        rw [List.map_map]
        apply List.map_congr_left
        intro i _hi
        show colRT P ((List.range (i + 1)).foldl
            (fun s2 k => qpScanStep P g st.W s2 (nb * b + k))
            ((List.range (nb * b)).foldl (qpScanStep P g st.W)
              (st.curQ, st.allQ))).1
            (st.W.getD (nb * b + i) zeroCol) = _
        rw [scan_offset, foldl_range_split, Nat.add_succ]
        rfl
      · rw [g3, h3, hm1, scan_offset, foldl_range_split, hcnt]
    · have hm1 : min (nb * b) st.W.length = st.W.length := by omega
      have hcnt0 : min (nb * b + b) st.W.length - nb * b = 0 := by omega
      have hm2 : min ((nb + 1) * b) st.W.length = st.W.length := by
        rw [Nat.succ_mul]
        omega
      refine ⟨g1.trans h1, ?_, ?_⟩
      · rw [g2, hcnt0, h2, hm1, hm2]
        simp
      · rw [g3, hcnt0, h3, hm1, hm2]
        simp

theorem faster_quant_diag {QP : Type} (P : Plugin QP) (cholChain : Mat → Mat)
    (b : ℕ) (p : ℚ) (g : ℤ) (H : Mat) (W : List Col)
    (hb : 1 ≤ b)
    (hdiag : ∀ a b2, a ≠ b2 →
      cholChain (dampDiag p W.length (deadFixH H)) a b2 = 0) :
    (faster_quant_qlist P cholChain b p g H W).1 =
      (List.range W.length).map (fun c =>
        colRT P ((List.range (c + 1)).foldl (qpScanStep P g (deadFixW H W))
          ((if g = -1 then P.getQparams W else P.getQparams []), [])).1
          ((deadFixW H W).getD c zeroCol)) ∧
    ((faster_quant_state P cholChain b p g H W).curQ,
      (faster_quant_state P cholChain b p g H W).allQ) =
      (List.range W.length).foldl (qpScanStep P g (deadFixW H W))
        ((if g = -1 then P.getQparams W else P.getQparams []), []) := by
  obtain ⟨h1, h2, h3⟩ := blockFold_diag P
    (cholChain (dampDiag p W.length (deadFixH H))) b g hdiag
    ((W.length + b - 1) / b)
    ⟨deadFixW H W, [], (if g = -1 then P.getQparams W else P.getQparams []), []⟩
  have hmin : min (((W.length + b - 1) / b) * b) (deadFixW H W).length =
      W.length := by
    rw [deadFixW_length]
    have := le_ceil_mul b W.length hb
    omega
  simp only [deadFixW_length] at hmin
  constructor
  · show (faster_quant_state P cholChain b p g H W).DQ = _
    unfold faster_quant_state
    rw [h2]
    simp only [deadFixW_length, hmin, List.nil_append]
  · unfold faster_quant_state
    rw [h3]
    simp only [deadFixW_length, hmin]

/-- Partition a list of columns into contiguous chunks of `gn` columns
(the groups of the `in_features` dimension). -/
def chunkCols (gn : ℕ) : List Col → List (List Col)
  | [] => []
  | c :: rest => ((c :: rest).take gn) :: chunkCols gn (rest.drop (gn - 1))
termination_by l => l.length
decreasing_by
  simp only [List.length_drop, List.length_cons]
  omega

theorem chunkCols_expand (gn : ℕ) (hgn : 1 ≤ gn) (l : List Col) (hl : l ≠ []) :
    chunkCols gn l = (l.take gn) :: chunkCols gn (l.drop gn) := by
  cases l with
  | nil => exact absurd rfl hl
  | cons c rest =>
    rw [chunkCols]
    obtain ⟨m, rfl⟩ : ∃ m, gn = m + 1 := ⟨gn - 1, by omega⟩
    simp only [Nat.add_sub_cancel, List.drop_succ_cons]

theorem getD_drop (l : List Col) (s c : ℕ) :
    (l.drop s).getD c zeroCol = l.getD (s + c) zeroCol := by
  rw [List.getD_eq_getElem?_getD, List.getD_eq_getElem?_getD, List.getElem?_drop]

theorem getD_take (l : List Col) (n c : ℕ) (hc : c < n) :
    (l.take n).getD c zeroCol = l.getD c zeroCol := by
  rw [List.getD_eq_getElem?_getD, List.getD_eq_getElem?_getD,
    List.getElem?_take, if_pos hc]

theorem chunkCols_nil (gn : ℕ) : chunkCols gn [] = [] := by
  rw [chunkCols]

theorem range_map_getD {β : Type} (l : List Col) (f : Col → β) :
    (List.range l.length).map (fun c => f (l.getD c zeroCol)) = l.map f := by
  apply List.ext_get?
  intro n
  rw [List.get?_eq_getElem?, List.get?_eq_getElem?, List.getElem?_map,
    List.getElem?_map]
  by_cases hn : n < l.length
  · rw [List.getElem?_range hn, List.getElem?_eq_getElem hn]
    simp only [Option.map_some']
    rw [List.getD_eq_getElem _ _ hn]
  · rw [List.getElem?_eq_none (show l.length ≤ n by omega),
      List.getElem?_eq_none (show (List.range l.length).length ≤ n by
        rw [List.length_range]; omega)]
    rfl

theorem chunkCols_flatten (gn : ℕ) (hgn : 1 ≤ gn) :
    ∀ (n : ℕ) (l : List Col), l.length ≤ n → (chunkCols gn l).flatten = l := by
  intro n
  induction n with
  | zero =>
    intro l hl
    have h0 : l = [] := List.eq_nil_of_length_eq_zero (by omega)
    subst h0
    rw [chunkCols_nil]
    rfl
  | succ n ih =>
    intro l hl
    cases l with
    | nil => rw [chunkCols_nil]; rfl
    | cons c rest =>
      rw [chunkCols_expand gn hgn _ (by simp), List.flatten_cons]
      have hrec : (chunkCols gn ((c :: rest).drop gn)).flatten =
          (c :: rest).drop gn := by
        apply ih
        simp only [List.length_drop, List.length_cons]
        simp only [List.length_cons] at hl
        omega
      rw [hrec]
      exact List.take_append_drop gn (c :: rest)

theorem chunkCols_lengths (gn : ℕ) (hgn : 1 ≤ gn) :
    ∀ (q : ℕ) (l : List Col), l.length = gn * q →
      ∀ grp ∈ chunkCols gn l, grp.length = gn := by
  intro q
  induction q with
  | zero =>
    intro l hl grp hgrp
    have h0 : l = [] := List.eq_nil_of_length_eq_zero (by omega)
    subst h0
    rw [chunkCols_nil] at hgrp
    cases hgrp
  | succ q ih =>
    intro l hl grp hgrp
    have hlen : gn ≤ l.length := by
      rw [hl, Nat.mul_succ]
      omega
    have hne : l ≠ [] := by
      intro hcon
      rw [hcon] at hl
      simp only [List.length_nil] at hl
      have h2 := Nat.mul_eq_zero.mp hl.symm
      omega
    rw [chunkCols_expand gn hgn l hne] at hgrp
    rcases List.mem_cons.mp hgrp with h | h
    · rw [h, List.length_take]
      omega
    · have hlen2 : (l.drop gn).length = gn * q := by
        simp only [List.length_drop]
        rw [hl, Nat.mul_succ]
        omega
      exact ih (l.drop gn) hlen2 grp h

theorem chunkCols_of_flatten (gn : ℕ) (hgn : 1 ≤ gn) :
    ∀ (chunks : List (List Col)), (∀ ch ∈ chunks, ch.length = gn) →
      chunkCols gn chunks.flatten = chunks := by
  intro chunks
  induction chunks with
  | nil => intro _; rw [List.flatten_nil, chunkCols_nil]
  | cons ch rest ih =>
    intro h
    have hch : ch.length = gn := h ch (List.mem_cons_self _ _)
    have hne : (ch :: rest).flatten ≠ [] := by
      rw [List.flatten_cons]
      intro hcon
      have h2 := (List.append_eq_nil.mp hcon).1
      have h3 : ch.length = 0 := by rw [h2]; rfl
      omega
    rw [chunkCols_expand gn hgn _ hne]
    rw [List.flatten_cons, ← hch, List.take_left, List.drop_left, hch]
    rw [ih (fun c hc => h c (List.mem_cons_of_mem _ hc))]

theorem chunkCols_map_slice (gn : ℕ) (hgn : 1 ≤ gn) {β : Type}
    (G : List Col → β) :
    ∀ (q : ℕ) (l : List Col), l.length = gn * q →
      (chunkCols gn l).map G =
        (List.range q).map (fun k => G (sliceCols l (gn * k) gn)) := by
  intro q
  induction q with
  | zero =>
    intro l hl
    have h0 : l = [] := List.eq_nil_of_length_eq_zero (by omega)
    subst h0
    rw [chunkCols_nil]
    rfl
  | succ q ih =>
    intro l hl
    have hlen : gn ≤ l.length := by
      rw [hl, Nat.mul_succ]
      omega
    have hne : l ≠ [] := by
      intro hcon
      rw [hcon] at hl
      simp only [List.length_nil] at hl
      have h2 := Nat.mul_eq_zero.mp hl.symm
      omega
    rw [chunkCols_expand gn hgn l hne, List.map_cons]
    rw [List.range_succ_eq_map, List.map_cons, List.map_map]
    have hhead : G (l.take gn) = G (sliceCols l (gn * 0) gn) := by
      rw [Nat.mul_zero]
      rfl
    have htail : (chunkCols gn (l.drop gn)).map G =
        (List.range q).map ((fun k => G (sliceCols l (gn * k) gn)) ∘ Nat.succ) := by
      have hlen2 : (l.drop gn).length = gn * q := by
        simp only [List.length_drop]
        rw [hl, Nat.mul_succ]
        omega
      rw [ih (l.drop gn) hlen2]
      apply List.map_congr_left
      intro k _hk
      show G (sliceCols (l.drop gn) (gn * k) gn) =
        G (sliceCols l (gn * (k + 1)) gn)
      congr 1
      unfold sliceCols
      rw [List.drop_drop]
      congr 2
      ring
    rw [hhead, htail]

theorem natCast_emod_eq_zero_iff (g : ℤ) (hg : 1 ≤ g) (c : ℕ) :
    (((c : ℕ) : ℤ) % g = 0) ↔ g.toNat ∣ c := by
  constructor
  · intro hmod
    have hdz : g ∣ (c : ℤ) := Int.dvd_of_emod_eq_zero hmod
    have h2 : ((g.toNat : ℕ) : ℤ) ∣ ((c : ℕ) : ℤ) := by
      rw [Int.toNat_of_nonneg (by omega : (0 : ℤ) ≤ g)]
      exact hdz
    exact Int.natCast_dvd_natCast.mp h2
  · intro hd
    apply Int.emod_eq_zero_of_dvd
    have h2 : ((g.toNat : ℕ) : ℤ) ∣ ((c : ℕ) : ℤ) := Int.natCast_dvd_natCast.mpr hd
    rwa [Int.toNat_of_nonneg (by omega : (0 : ℤ) ≤ g)] at h2

theorem scan_neg_one {QP : Type} (P : Plugin QP) (W0 : List Col)
    (s0 : QP × List QP) : ∀ n,
    (List.range n).foldl (qpScanStep P (-1) W0) s0 = s0 := by
  intro n
  induction n with
  | zero => rfl
  | succ n ih =>
    rw [foldl_range_succ, ih]
    simp [qpScanStep]

theorem scan_fst {QP : Type} (P : Plugin QP) (g : ℤ) (hg : 1 ≤ g)
    (W0 : List Col) (s0 : QP × List QP) : ∀ c,
    ((List.range (c + 1)).foldl (qpScanStep P g W0) s0).1 =
      P.getQparams (sliceCols W0 (g.toNat * (c / g.toNat)) g.toNat) := by
  have hgt : 1 ≤ g.toNat := by omega
  intro c
  induction c with
  | zero =>
    rw [foldl_range_succ]
    have hcond : g ≠ -1 ∧ ((0 : ℕ) : ℤ) % g = 0 := ⟨by omega, by simp⟩
    simp only [qpScanStep, if_pos hcond]
    rw [Nat.zero_div, Nat.mul_zero]
  | succ c ih =>
    rw [foldl_range_succ]
    by_cases hd : g.toNat ∣ (c + 1)
    · have hcond : g ≠ -1 ∧ ((c + 1 : ℕ) : ℤ) % g = 0 :=
        ⟨by omega, (natCast_emod_eq_zero_iff g hg (c + 1)).mpr hd⟩
      simp only [qpScanStep, if_pos hcond]
      obtain ⟨k, hk⟩ := hd
      rw [hk, Nat.mul_div_cancel_left _ (by omega : 0 < g.toNat)]
    · have hcond : ¬ (g ≠ -1 ∧ ((c + 1 : ℕ) : ℤ) % g = 0) := by
        intro hcon
        exact hd ((natCast_emod_eq_zero_iff g hg (c + 1)).mp hcon.2)
      simp only [qpScanStep, if_neg hcond]
      rw [ih]
      have hdiv : (c + 1) / g.toNat = c / g.toNat := by
        rw [Nat.succ_div, if_neg hd]
        omega
      rw [← hdiv]

theorem scan_noop {QP : Type} (P : Plugin QP) (g : ℤ) (hg : 1 ≤ g)
    (W0 : List Col) : ∀ (cnt start : ℕ) (s : QP × List QP),
    (∀ j, start ≤ j → j < start + cnt → ¬ g.toNat ∣ j) →
    (List.range' start cnt).foldl (qpScanStep P g W0) s = s := by
  intro cnt
  induction cnt with
  | zero => intro start s _; rfl
  | succ cnt ih =>
    intro start s hnd
    rw [List.range'_succ, List.foldl_cons]
    have hcond : ¬ (g ≠ -1 ∧ ((start : ℕ) : ℤ) % g = 0) := by
      intro hcon
      exact hnd start (le_refl _) (by omega)
        ((natCast_emod_eq_zero_iff g hg start).mp hcon.2)
    rw [show qpScanStep P g W0 s start = s from by
      simp only [qpScanStep, if_neg hcond]]
    exact ih (start + 1) s (fun j h1 h2 => hnd j (by omega) (by omega))

theorem scan_segment {QP : Type} (P : Plugin QP) (g : ℤ) (hg : 1 ≤ g)
    (W0 : List Col) (m : ℕ) (hm : g.toNat ∣ m) (s : QP × List QP) :
    (List.range' m g.toNat).foldl (qpScanStep P g W0) s =
      (P.getQparams (sliceCols W0 m g.toNat),
       s.2 ++ [P.getQparams (sliceCols W0 m g.toNat)]) := by
  have hgt : 1 ≤ g.toNat := by omega
  obtain ⟨m2, hm2⟩ : ∃ m2, g.toNat = m2 + 1 := ⟨g.toNat - 1, by omega⟩
  rw [show List.range' m g.toNat = m :: List.range' (m + 1) m2 from by
    rw [hm2, List.range'_succ]]
  rw [List.foldl_cons]
  have hcond : g ≠ -1 ∧ ((m : ℕ) : ℤ) % g = 0 :=
    ⟨by omega, (natCast_emod_eq_zero_iff g hg m).mpr hm⟩
  rw [show qpScanStep P g W0 s m =
      (P.getQparams (sliceCols W0 m g.toNat),
       s.2 ++ [P.getQparams (sliceCols W0 m g.toNat)]) from by
    simp only [qpScanStep, if_pos hcond]]
  apply scan_noop P g hg W0 m2 (m + 1)
  intro j h1 h2 hdj
  obtain ⟨k, hk⟩ := hm
  obtain ⟨k2, hk2⟩ := hdj
  have hk2k : k < k2 := by
    by_contra hle
    push_neg at hle
    have := Nat.mul_le_mul_left g.toNat hle
    omega
  have hle2 : g.toNat * (k + 1) ≤ g.toNat * k2 :=
    Nat.mul_le_mul_left g.toNat (by omega)
  have hexp : g.toNat * (k + 1) = g.toNat * k + g.toNat := by ring
  omega

theorem scan_snd {QP : Type} (P : Plugin QP) (g : ℤ) (hg : 1 ≤ g)
    (W0 : List Col) (s0 : QP × List QP) : ∀ q,
    ((List.range (g.toNat * q)).foldl (qpScanStep P g W0) s0).2 =
      s0.2 ++ (List.range q).map
        (fun k => P.getQparams (sliceCols W0 (g.toNat * k) g.toNat)) := by
  intro q
  induction q with
  | zero => simp
  | succ q ih =>
    have hsum : g.toNat * (q + 1) = g.toNat * q + g.toNat := by ring
    rw [hsum, ← foldl_range_split (qpScanStep P g W0) s0 (g.toNat * q) g.toNat]
    rw [scan_segment P g hg W0 (g.toNat * q) (Dvd.intro q rfl) _]
    rw [List.range_succ, List.map_append]
    simp only [List.map_cons, List.map_nil]
    rw [ih]
    rw [List.append_assoc]

theorem slice_map_flatten (gn : ℕ) (hgn : 1 ≤ gn) (F : List Col → Col → Col) :
    ∀ (q : ℕ) (l : List Col), l.length = gn * q →
    (List.range l.length).map
        (fun c => F (sliceCols l (gn * (c / gn)) gn) (l.getD c zeroCol)) =
      ((chunkCols gn l).map (fun grp => grp.map (F grp))).flatten := by
  intro q
  induction q with
  | zero =>
    intro l hl
    have h0 : l = [] := List.eq_nil_of_length_eq_zero (by omega)
    subst h0
    rw [chunkCols_nil]
    rfl
  | succ q ih =>
    intro l hl
    have hlen : gn ≤ l.length := by
      rw [hl, Nat.mul_succ]
      omega
    have hne : l ≠ [] := by
      intro hcon
      rw [hcon] at hl
      simp only [List.length_nil] at hl
      have h2 := Nat.mul_eq_zero.mp hl.symm
      omega
    have hlen2 : (l.drop gn).length = gn * q := by
      simp only [List.length_drop]
      rw [hl, Nat.mul_succ]
      omega
    have hsplit : l.length = gn + gn * q := by
      rw [hl]
      ring
    rw [hsplit, List.range_add, List.map_append]
    have hpart1 : (List.range gn).map
        (fun c => F (sliceCols l (gn * (c / gn)) gn) (l.getD c zeroCol)) =
        (l.take gn).map (F (l.take gn)) := by
      have h1 : ∀ c ∈ List.range gn,
          (fun c => F (sliceCols l (gn * (c / gn)) gn) (l.getD c zeroCol)) c =
          (fun c => F (l.take gn) ((l.take gn).getD c zeroCol)) c := by
        intro c hc
        have hclt : c < gn := List.mem_range.mp hc
        show F (sliceCols l (gn * (c / gn)) gn) (l.getD c zeroCol) = _
        rw [Nat.div_eq_of_lt hclt, Nat.mul_zero]
        rw [show sliceCols l 0 gn = l.take gn from rfl]
        rw [← getD_take l gn c hclt]
      rw [List.map_congr_left h1]
      rw [show List.range gn = List.range (l.take gn).length from by
        rw [List.length_take]
        congr 1
        omega]
      exact range_map_getD (l.take gn) (F (l.take gn))
    have hpart2 : ((List.range (gn * q)).map (fun x => gn + x)).map
        (fun c => F (sliceCols l (gn * (c / gn)) gn) (l.getD c zeroCol)) =
        ((chunkCols gn (l.drop gn)).map (fun grp => grp.map (F grp))).flatten := by
      rw [List.map_map]
      have h3 : ∀ c ∈ List.range (gn * q),
          ((fun c => F (sliceCols l (gn * (c / gn)) gn) (l.getD c zeroCol)) ∘
            (fun x => gn + x)) c =
          (fun c => F (sliceCols (l.drop gn) (gn * (c / gn)) gn)
            ((l.drop gn).getD c zeroCol)) c := by
        intro c _
        show F (sliceCols l (gn * ((gn + c) / gn)) gn) (l.getD (gn + c) zeroCol) = _
        have hdv : (gn + c) / gn = c / gn + 1 := by
          rw [Nat.add_comm gn c, Nat.add_div_right _ (by omega : 0 < gn)]
        rw [hdv]
        rw [show gn * (c / gn + 1) = gn + gn * (c / gn) from by ring]
        rw [show sliceCols l (gn + gn * (c / gn)) gn =
            sliceCols (l.drop gn) (gn * (c / gn)) gn from by
          unfold sliceCols
          rw [List.drop_drop]]
        rw [← getD_drop l gn c]
      rw [List.map_congr_left h3]
      rw [show List.range (gn * q) = List.range (l.drop gn).length from by
        rw [hlen2]]
      exact ih (l.drop gn) hlen2
    rw [hpart1, hpart2]
    rw [chunkCols_expand gn hgn l hne, List.map_cons, List.flatten_cons]

theorem deadFixW_diagId (W : List Col) : deadFixW diagId W = W := by
  unfold deadFixW
  have h : ∀ p ∈ W.enum, (if diagId p.1 p.1 = 0 then zeroCol else p.2) = p.2 := by
    intro p _
    rw [if_neg]
    simp [diagId]
  rw [List.map_congr_left h, List.enum_map_snd]

/-- Modelled from the spec (section 8, identity-Hessian reduction): plain
independent per-group quantization of the original `W` — each group gets its
own qparams from `get_qparams`, is quantized and dequantized with them, and
the per-group qparams are listed in order.  Returned as
(quantized, dequantized, qparams list). -/
def groupwiseReference {QP : Type} (P : Plugin QP) (g : ℤ) (W : List Col) :
    List Col × List Col × List QP :=
  let groups := if g = -1 then [W] else chunkCols g.toNat W
  ((groups.map (fun grp => P.quantize grp (P.getQparams grp))).flatten,
   (groups.map (fun grp =>
      P.dequantize (P.quantize grp (P.getQparams grp)) (P.getQparams grp))).flatten,
   groups.map P.getQparams)

theorem requant_group {QP : Type} (P : Plugin QP)
    (hA : ∀ cols qp, P.quantize cols qp = cols.map (fun c => quant1 P c qp))
    (hC : ∀ w qp, quant1 P (colRT P qp w) qp = quant1 P w qp)
    (grp : List Col) (qp : QP) :
    P.quantize (grp.map (colRT P qp)) qp = P.quantize grp qp := by
  rw [hA, hA, List.map_map]
  apply List.map_congr_left
  intro c _
  exact hC c qp

theorem group_rt_map {QP : Type} (P : Plugin QP)
    (hA : ∀ cols qp, P.quantize cols qp = cols.map (fun c => quant1 P c qp))
    (hB : ∀ cols qp, P.dequantize cols qp = cols.map (fun c => dequant1 P c qp))
    (grp : List Col) (qp : QP) :
    P.dequantize (P.quantize grp qp) qp = grp.map (colRT P qp) := by
  rw [hA, hB, List.map_map]
  rfl

theorem ite_isEmpty_append {α : Type} (l : List α) (x : α) (a : List α) :
    (if (l ++ [x]).isEmpty then a else l ++ [x]) = l ++ [x] := by
  cases l with
  | nil => rfl
  | cons y l => rfl

theorem map_self {α : Type} (f : α → α) (hf : ∀ x, f x = x) :
    ∀ l : List α, l.map f = l := by
  intro l
  induction l with
  | nil => rfl
  | cons a l ih => rw [List.map_cons, hf, ih]

/-- C3: with `H` the identity matrix the inverse-Hessian factor is diagonal,
every off-diagonal propagation term vanishes, and `faster_quant`'s outputs
`DQ`, `Q` and the per-group qparams equal plain independent per-group
quantize/dequantize of the original `W` with each group's own qparams.
Hypotheses: the configured block size is positive; the factorization chain of
a diagonal matrix is diagonal; the group size is the whole-tensor sentinel or
a positive divisor of the column count; and the quantization mode is
columnwise (`hA`, `hB`), requant-idempotent per column (`hC`), and compatible
with groupwise combination (`hD`). -/
theorem c3_identity_hessian {QP : Type} (P : Plugin QP) (cholChain : Mat → Mat)
    (b : ℕ) (p : ℚ) (g : ℤ) (W : List Col)
    (hb : 1 ≤ b)
    (hdiag : ∀ a b2, a ≠ b2 →
      cholChain (dampDiag p W.length (deadFixH diagId)) a b2 = 0)
    (hg : g = -1 ∨ (1 ≤ g ∧ g.toNat ∣ W.length ∧ 1 ≤ W.length))
    (hA : ∀ cols qp, P.quantize cols qp = cols.map (fun c => quant1 P c qp))
    (hB : ∀ cols qp, P.dequantize cols qp = cols.map (fun c => dequant1 P c qp))
    (hC : ∀ w qp, quant1 P (colRT P qp w) qp = quant1 P w qp)
    (hD : ∀ (chunks : List (List Col)) (qps : List QP),
      chunks.length = qps.length →
      P.quantize chunks.flatten (P.combineQparamsList qps) =
        (List.zipWith (fun ch qp => P.quantize ch qp) chunks qps).flatten) :
    (faster_quant P cholChain b p g diagId W).2.1 =
        (groupwiseReference P g W).2.1 ∧
      (faster_quant P cholChain b p g diagId W).1 =
        (groupwiseReference P g W).1 ∧
      (faster_quant_qlist P cholChain b p g diagId W).2 =
        (groupwiseReference P g W).2.2 := by
  rcases hg with hneg | ⟨hg1, hgd, hc1⟩
  · subst hneg
    obtain ⟨hDQ, _⟩ := faster_quant_diag P cholChain b p (-1) diagId W hb hdiag
    rw [deadFixW_diagId] at hDQ
    have hq5 := c5_amended P cholChain b p diagId W
    have hent : ∀ c ∈ List.range W.length,
        (fun c => colRT P ((List.range (c + 1)).foldl (qpScanStep P (-1) W)
          ((if (-1 : ℤ) = -1 then P.getQparams W else P.getQparams []), [])).1
          (W.getD c zeroCol)) c =
        (fun c => colRT P (P.getQparams W) (W.getD c zeroCol)) c := by
      intro c _
      show colRT P _ _ = _
      rw [scan_neg_one]
      rfl
    have hDQval : (faster_quant_qlist P cholChain b p (-1) diagId W).1 =
        W.map (colRT P (P.getQparams W)) := by
      rw [hDQ, List.map_congr_left hent]
      exact range_map_getD W (colRT P (P.getQparams W))
    have hrefDQ : (groupwiseReference P (-1) W).2.1 =
        W.map (colRT P (P.getQparams W)) := by
      show (([W]).map (fun grp =>
          P.dequantize (P.quantize grp (P.getQparams grp)) (P.getQparams grp))).flatten = _
      rw [List.map_cons, List.map_nil, List.flatten_cons, List.flatten_nil,
        List.append_nil]
      exact group_rt_map P hA hB W (P.getQparams W)
    have hQval : (faster_quant P cholChain b p (-1) diagId W).1 =
        P.quantize W (P.getQparams W) := by
      show P.quantize (faster_quant_qlist P cholChain b p (-1) diagId W).1
          (P.combineQparamsList
            (faster_quant_qlist P cholChain b p (-1) diagId W).2) = _
      rw [hDQval, hq5]
      have hd := hD [W.map (colRT P (P.getQparams W))] [P.getQparams W] rfl
      simp only [List.flatten_cons, List.flatten_nil, List.append_nil,
        List.zipWith_cons_cons, List.zipWith_nil_right] at hd
      rw [hd]
      exact requant_group P hA hC W (P.getQparams W)
    have hrefQ : (groupwiseReference P (-1) W).1 =
        P.quantize W (P.getQparams W) := by
      show (([W]).map (fun grp =>
          P.quantize grp (P.getQparams grp))).flatten = _
      rw [List.map_cons, List.map_nil, List.flatten_cons, List.flatten_nil,
        List.append_nil]
    have hrefQP : (groupwiseReference P (-1) W).2.2 = [P.getQparams W] := rfl
    exact ⟨hDQval.trans hrefDQ.symm, hQval.trans hrefQ.symm,
      hq5.trans hrefQP.symm⟩
  · have hgne : g ≠ -1 := by omega
    have hgt : 1 ≤ g.toNat := by omega
    obtain ⟨q, hq⟩ := hgd
    obtain ⟨q1, rfl⟩ : ∃ q1, q = q1 + 1 := by
      refine ⟨q - 1, ?_⟩
      rcases Nat.eq_zero_or_pos q with h0 | h1
      · rw [h0, Nat.mul_zero] at hq
        omega
      · omega
    obtain ⟨hDQ, hscan⟩ := faster_quant_diag P cholChain b p g diagId W hb hdiag
    rw [deadFixW_diagId] at hDQ hscan
    rw [if_neg hgne] at hDQ hscan
    have hent : ∀ c ∈ List.range W.length,
        (fun c => colRT P ((List.range (c + 1)).foldl (qpScanStep P g W)
          (P.getQparams [], [])).1 (W.getD c zeroCol)) c =
        (fun c => (fun grp w => colRT P (P.getQparams grp) w)
          (sliceCols W (g.toNat * (c / g.toNat)) g.toNat)
          (W.getD c zeroCol)) c := by
      intro c _
      show colRT P _ _ = _
      rw [scan_fst P g hg1 W _ c]
    have hDQval : (faster_quant_qlist P cholChain b p g diagId W).1 =
        ((chunkCols g.toNat W).map (fun grp =>
          grp.map (fun w => colRT P (P.getQparams grp) w))).flatten := by
      rw [hDQ, List.map_congr_left hent]
      exact slice_map_flatten g.toNat hgt
        (fun grp w => colRT P (P.getQparams grp) w) (q1 + 1) W hq
    have hrefDQ : (groupwiseReference P g W).2.1 =
        ((chunkCols g.toNat W).map (fun grp =>
          grp.map (fun w => colRT P (P.getQparams grp) w))).flatten := by
      show ((if g = -1 then [W] else chunkCols g.toNat W).map (fun grp =>
          P.dequantize (P.quantize grp (P.getQparams grp))
            (P.getQparams grp))).flatten = _
      rw [if_neg hgne]
      congr 1
      exact List.map_congr_left
        (fun grp _ => group_rt_map P hA hB grp (P.getQparams grp))
    have hall : (faster_quant_state P cholChain b p g diagId W).allQ =
        (List.range (q1 + 1)).map
          (fun k => P.getQparams (sliceCols W (g.toNat * k) g.toNat)) := by
      have h2 : (faster_quant_state P cholChain b p g diagId W).allQ =
          ((List.range W.length).foldl (qpScanStep P g W)
            (P.getQparams [], [])).2 := congrArg Prod.snd hscan
      rw [h2, show W.length = g.toNat * (q1 + 1) from hq]
      rw [scan_snd P g hg1 W (P.getQparams [], []) (q1 + 1)]
      rfl
    have hqlist : (faster_quant_qlist P cholChain b p g diagId W).2 =
        (List.range (q1 + 1)).map
          (fun k => P.getQparams (sliceCols W (g.toNat * k) g.toNat)) := by
      show (if (faster_quant_state P cholChain b p g diagId W).allQ.isEmpty
          then [(faster_quant_state P cholChain b p g diagId W).curQ]
          else (faster_quant_state P cholChain b p g diagId W).allQ) = _
      rw [hall, List.range_succ, List.map_append]
      exact ite_isEmpty_append _ _ _
    have hrefQP : (groupwiseReference P g W).2.2 =
        (List.range (q1 + 1)).map
          (fun k => P.getQparams (sliceCols W (g.toNat * k) g.toNat)) := by
      show (if g = -1 then [W] else chunkCols g.toNat W).map P.getQparams = _
      rw [if_neg hgne]
      exact chunkCols_map_slice g.toNat hgt P.getQparams (q1 + 1) W hq
    have hQval : (faster_quant P cholChain b p g diagId W).1 =
        ((chunkCols g.toNat W).map (fun grp =>
          P.quantize grp (P.getQparams grp))).flatten := by
      show P.quantize (faster_quant_qlist P cholChain b p g diagId W).1
          (P.combineQparamsList
            (faster_quant_qlist P cholChain b p g diagId W).2) = _
      rw [hDQval, hqlist]
      rw [← chunkCols_map_slice g.toNat hgt P.getQparams (q1 + 1) W hq]
      rw [hD ((chunkCols g.toNat W).map (fun grp =>
            grp.map (fun w => colRT P (P.getQparams grp) w)))
          ((chunkCols g.toNat W).map P.getQparams) (by simp)]
      rw [List.zipWith_map_left, List.zipWith_map_right, List.zipWith_same]
      congr 1
      exact List.map_congr_left
        (fun grp _ => requant_group P hA hC grp (P.getQparams grp))
    have hrefQ : (groupwiseReference P g W).1 =
        ((chunkCols g.toNat W).map (fun grp =>
          P.quantize grp (P.getQparams grp))).flatten := by
      show ((if g = -1 then [W] else chunkCols g.toNat W).map (fun grp =>
          P.quantize grp (P.getQparams grp))).flatten = _
      rw [if_neg hgne]
    exact ⟨hDQval.trans hrefDQ.symm, hQval.trans hrefQ.symm,
      hqlist.trans hrefQP.symm⟩

theorem rnd_intCast (n : ℤ) : rnd ((n : ℤ) : ℚ) = n := by
  unfold rnd
  rw [Rat.num_intCast, Rat.den_intCast]
  rw [Int.fdiv_eq_ediv _ (by norm_num)]
  omega

theorem roundPlugin_quantize (cols : List Col) (qp : Unit) :
    roundPlugin.quantize cols qp =
      cols.map (fun c => fun r => ((rnd (c r) : ℤ) : ℚ)) := rfl

theorem roundPlugin_quantize_flatten :
    ∀ (chunks : List (List Col)) (qps : List Unit),
    chunks.length = qps.length →
    roundPlugin.quantize chunks.flatten (roundPlugin.combineQparamsList qps) =
      (List.zipWith (fun ch qp => roundPlugin.quantize ch qp)
        chunks qps).flatten := by
  intro chunks
  induction chunks with
  | nil =>
    intro qps h
    cases qps with
    | nil => rfl
    | cons y qs => simp at h
  | cons ch chunks ih =>
    intro qps h
    cases qps with
    | nil => simp at h
    | cons y qs =>
      have htail := ih qs (by simpa using h)
      rw [List.flatten_cons, roundPlugin_quantize, List.map_append]
      simp only [List.zipWith_cons_cons, List.flatten_cons]
      rw [roundPlugin_quantize ch y]
      congr 1

/-- The weight used in the C3 witness: two columns. -/
def wit3W : List Col := [fun _ => (1 : ℚ) / 3, fun _ => (5 : ℚ) / 3]

theorem c3_identity_hessian_witness :
    (faster_quant roundPlugin constChol 1 0 2 diagId wit3W).2.1 =
        (groupwiseReference roundPlugin 2 wit3W).2.1 ∧
      (faster_quant roundPlugin constChol 1 0 2 diagId wit3W).1 =
        (groupwiseReference roundPlugin 2 wit3W).1 ∧
      (faster_quant_qlist roundPlugin constChol 1 0 2 diagId wit3W).2 =
        (groupwiseReference roundPlugin 2 wit3W).2.2 :=
  c3_identity_hessian roundPlugin constChol 1 0 2 wit3W
    (by decide)
    (by
      intro a b2 h
      show (if a = b2 then (1 : ℚ) else 0) = 0
      rw [if_neg h])
    (by
      right
      exact ⟨by decide, by decide, by decide⟩)
    (fun cols qp => rfl)
    (by
      intro cols qp
      symm
      exact map_self _ (fun x => rfl) cols)
    (by
      intro w qp
      funext r
      show ((rnd (((rnd (w r) : ℤ) : ℚ)) : ℤ) : ℚ) = _
      rw [rnd_intCast]
      rfl)
    roundPlugin_quantize_flatten

/-! ## Claim C9: precondition errors -/

/-- C9: `run` fails with the configuration precondition error whenever the
plugin has not been configured — independently of the graph walk, which is
therefore not performed and yields no partial result — and
`get_quantized_state_dict` fails with the run precondition error whenever
`gptq_done` is still false (GPTQ.py lines 296-301 and 303-315). -/
theorem c9_preconditions {QP V : Type}
    (walk walk2 : List (String × V) → List (String × V)) (st st2 : RunnerSt V) :
    Runner.run walk (none : Option (Plugin QP)) st =
      Except.error "need to configure quantization mode before running" ∧
    Runner.run walk (none : Option (Plugin QP)) st =
      Runner.run walk2 (none : Option (Plugin QP)) st ∧
    (st2.gptqDone = false →
      Runner.get_quantized_state_dict st2 =
        Except.error "need to run GPTQRunner before you can get_quantized_state_dict") := by
  refine ⟨rfl, rfl, ?_⟩
  intro h
  simp [Runner.get_quantized_state_dict, h]

/-- Witness for C9 at a concrete state: fresh runner state (`gptq_done`
false, one state-dict entry), unconfigured plugin. -/
theorem c9_preconditions_witness :
    Runner.run (fun sd => sd) (none : Option (Plugin Unit))
        (RunnerSt.mk false [("w", (0 : ℚ))]) =
      Except.error "need to configure quantization mode before running" ∧
    Runner.get_quantized_state_dict (RunnerSt.mk false [("w", (0 : ℚ))]) =
      Except.error "need to run GPTQRunner before you can get_quantized_state_dict" := by
  have h := @c9_preconditions Unit ℚ (fun sd => sd) (fun sd => sd)
    (RunnerSt.mk false [("w", (0 : ℚ))]) (RunnerSt.mk false [("w", (0 : ℚ))])
  exact ⟨h.1, h.2.2 rfl⟩
